import Mathlib

/-!
Verification of the `gps_tracker` owner-side companion tools
(`tools/src/gps_tracker_tools/{findmy,fmdn,fmdn_fetch,gpx}.py`).

Bytes are modelled as `List ℕ` (each entry a byte value), Python's unbounded
integers as `ℕ`/`ℤ`, and floating-point latitude/longitude arithmetic as exact
real/rational arithmetic.  Library crypto primitives that the code calls
opaquely (SHA-256, AES, ECDH, AES-GCM, the P-224 point multiplication of the
`cryptography` package) are abstracted as function parameters; everything the
repository implements itself (the X9.63 KDF, scalar reduction, SECP160R1
arithmetic, the protobuf codec, dedupe) is translated directly.
-/

namespace GpsTracker

/-- `int.from_bytes(b, "big")`. -/
def beVal (l : List ℕ) : ℕ := l.foldl (fun a b => 256 * a + b) 0

/-- `n.to_bytes(len, "big")`.  Total model: it produces the base-256 digits of
`n % 256^len`; every call site in the translated code passes `n < 256^len`
(Python raises `OverflowError` otherwise, and the one call site where that can
actually happen, in `compute_eid`, is modelled with an explicit guard). -/
def beBytes (len n : ℕ) : List ℕ :=
  (List.range len).map (fun i => n / 256 ^ (len - 1 - i) % 256)

-- ---------------------------------------------------------------------------
-- findmy.py : P-224 scalar reduction (bytes_to_scalar / bytes_to_scalar_nonzero)
-- ---------------------------------------------------------------------------

/-- P-224 curve order (module constant `P224_ORDER` in findmy.py). -/
def P224_ORDER : ℕ :=
  0xFFFFFFFFFFFFFFFFFFFFFFFFFFFF16A2E0B8F03E13DD29455C5C2A3D

/-- `bytes_to_scalar(data)`: take the first 28 bytes (left-padding with zero
bytes when shorter), interpret big-endian, reduce mod the P-224 order. -/
def bytes_to_scalar (data : List ℕ) : ℕ :=
  beVal (if 28 ≤ data.length then data.take 28
         else List.replicate (28 - data.length) 0 ++ data) % P224_ORDER

/-- `bytes_to_scalar_nonzero(data)`: same, but a zero result becomes 1. -/
def bytes_to_scalar_nonzero (data : List ℕ) : ℕ :=
  let s := bytes_to_scalar data
  if s ≠ 0 then s else 1

theorem beVal_append_replicate_zero (k : ℕ) (b : List ℕ) :
    beVal (List.replicate k 0 ++ b) = beVal b := by
  induction k with
  | zero => rfl
  | succ n ih =>
    have : List.replicate (n + 1) 0 ++ b = 0 :: (List.replicate n 0 ++ b) := by
      simp [List.replicate_succ]
    rw [this]
    simpa [beVal] using ih

/-- C6.  `bytes_to_scalar` is big-endian-of-first-28-bytes reduced mod the
P-224 order (left-padding does not change the value, so `beVal (b.take 28)`
covers both the short and the long case); `bytes_to_scalar_nonzero` remaps a
zero result to 1 and never returns 0. -/
theorem bytes_to_scalar_spec (b : List ℕ) :
    bytes_to_scalar b = beVal (b.take 28) % P224_ORDER ∧
    bytes_to_scalar_nonzero b =
      (if bytes_to_scalar b = 0 then 1 else bytes_to_scalar b) ∧
    bytes_to_scalar_nonzero b ≠ 0 := by
  refine ⟨?_, ?_, ?_⟩
  · unfold bytes_to_scalar
    by_cases h : 28 ≤ b.length
    · rw [if_pos h]
    · rw [if_neg h, beVal_append_replicate_zero]
      have : b.take 28 = b := List.take_of_length_le (by omega)
      rw [this]
  · unfold bytes_to_scalar_nonzero
    by_cases h : bytes_to_scalar b = 0 <;> simp [h]
  · unfold bytes_to_scalar_nonzero
    by_cases h : bytes_to_scalar b = 0 <;> simp [h]

-- ---------------------------------------------------------------------------
-- findmy.py : ANSI X9.63 KDF and rolling key derivation
-- ---------------------------------------------------------------------------

/-- Body of the `while len(result) < output_len` loop of `kdf_x963`.  The
`fuel` argument only bounds the number of iterations; `output_len + 1`
iterations always suffice because each SHA-256 digest appends 32 ≥ 1 bytes. -/
def kdfLoop (sha256 : List ℕ → List ℕ) (input sharedInfo : List ℕ)
    (outputLen : ℕ) : ℕ → ℕ → List ℕ → List ℕ
  | 0, _, result => result
  | fuel + 1, counter, result =>
    if result.length < outputLen then
      kdfLoop sha256 input sharedInfo outputLen fuel (counter + 1)
        (result ++ sha256 (input ++ beBytes 4 counter ++ sharedInfo))
    else result

/-- `kdf_x963(input_data, shared_info, output_len)`: ANSI X9.63 KDF with
SHA-256 (the digest function is passed in as a parameter). -/
def kdf_x963 (sha256 : List ℕ → List ℕ) (input sharedInfo : List ℕ)
    (outputLen : ℕ) : List ℕ :=
  (kdfLoop sha256 input sharedInfo outputLen (outputLen + 1) 1 []).take outputLen

/-- The X9.63 KDF as the spec phrases it: the concatenation of
`SHA256(input || be32(i) || shared_info)` for `i = 1, 2, …` truncated to the
requested length. -/
def kdfSpec (sha256 : List ℕ → List ℕ) (input sharedInfo : List ℕ)
    (outputLen : ℕ) : List ℕ :=
  (((List.range ((outputLen + 31) / 32)).map
    (fun i => sha256 (input ++ beBytes 4 (i + 1) ++ sharedInfo))).flatten).take outputLen

/-- `b"update"`. -/
def updateInfo : List ℕ := [117, 112, 100, 97, 116, 101]

/-- `b"diversify"`. -/
def diversifyInfo : List ℕ := [100, 105, 118, 101, 114, 115, 105, 102, 121]

/-- `derive_key_at(master_private, sk0, counter)`.  `ecPointX d` abstracts the
`cryptography`-library computation of the x-coordinate of `d·G` on P-224
(`ec.derive_private_key(d, SECP224R1()).public_key().public_numbers().x`).
Python's `for _ in range(counter)` performs `max(counter, 0)` iterations,
i.e. `counter.toNat` of them. -/
def derive_key_at (sha256 : List ℕ → List ℕ) (ecPointX : ℕ → ℕ)
    (master_private sk0 : List ℕ) (counter : ℤ) : ℕ × List ℕ :=
  let sk := (fun s => kdf_x963 sha256 s updateInfo 32)^[counter.toNat] sk0
  let diversified := kdf_x963 sha256 sk diversifyInfo 72
  let u_bytes := diversified.take 36
  let v_bytes := (diversified.drop 36).take 36
  let d0 := bytes_to_scalar master_private
  let u_i := bytes_to_scalar_nonzero u_bytes
  let v_i := bytes_to_scalar_nonzero v_bytes
  let d_i := (d0 * u_i + v_i) % P224_ORDER
  (d_i, beBytes 28 (ecPointX d_i))

/-- Rolling key derivation as the spec phrases it, for a nonnegative counter:
`sk_counter` is `counter` sequential applications of `kdf(·, "update", 32)` to
`sk0`, `diversified = kdf(sk_counter, "diversify", 72)`, `u/v` its two 36-byte
halves, `d_i = (d0·u_i + v_i) mod q`, public x = 28-byte big-endian
x-coordinate of `d_i · G`. -/
def deriveKeyAtSpec (sha256 : List ℕ → List ℕ) (ecPointX : ℕ → ℕ)
    (master_private sk0 : List ℕ) (counter : ℕ) : ℕ × List ℕ :=
  let sk := (fun s => kdfSpec sha256 s updateInfo 32)^[counter] sk0
  let diversified := kdfSpec sha256 sk diversifyInfo 72
  let u := diversified.take 36
  let v := (diversified.drop 36).take 36
  let d_i := (bytes_to_scalar master_private * bytes_to_scalar_nonzero u +
      bytes_to_scalar_nonzero v) % P224_ORDER
  (d_i, beBytes 28 (ecPointX d_i))

theorem kdfLoop_eq_blocks (sha256 : List ℕ → List ℕ)
    (hsha : ∀ x, (sha256 x).length = 32) (input sharedInfo : List ℕ)
    (outputLen : ℕ) :
    ∀ fuel counter acc, (outputLen - acc.length + 31) / 32 ≤ fuel →
      kdfLoop sha256 input sharedInfo outputLen fuel counter acc =
        acc ++ ((List.range ((outputLen - acc.length + 31) / 32)).map
          (fun i => sha256 (input ++ beBytes 4 (counter + i) ++ sharedInfo))).flatten := by
  intro fuel
  induction fuel with
  | zero =>
    intro counter acc h
    have hm : (outputLen - acc.length + 31) / 32 = 0 := Nat.le_zero.mp h
    simp [kdfLoop, hm]
  | succ n ih =>
    intro counter acc h
    by_cases hlt : acc.length < outputLen
    · have hm1 : (outputLen - acc.length + 31) / 32 =
          (outputLen - (acc.length + 32) + 31) / 32 + 1 := by omega
      have hlen : (acc ++ sha256 (input ++ beBytes 4 counter ++ sharedInfo)).length =
          acc.length + 32 := by simp [hsha]
      have hfg : (fun i => sha256 (input ++ beBytes 4 (counter + 1 + i) ++ sharedInfo))
          = ((fun i => sha256 (input ++ beBytes 4 (counter + i) ++ sharedInfo)) ∘
              Nat.succ) := by
        funext i
        simp only [Function.comp_apply]
        have hci : counter + 1 + i = counter + Nat.succ i := by omega
        rw [hci]
      rw [kdfLoop, if_pos hlt, ih (counter + 1) _ (by rw [hlen]; omega), hlen, hm1,
        List.range_succ_eq_map, List.map_cons, List.flatten_cons, List.map_map,
        List.append_assoc, hfg]
      simp
    · have hm : (outputLen - acc.length + 31) / 32 = 0 := by omega
      rw [kdfLoop, if_neg hlt, hm]
      simp

theorem kdf_x963_eq_spec (sha256 : List ℕ → List ℕ)
    (hsha : ∀ x, (sha256 x).length = 32) (input sharedInfo : List ℕ)
    (outputLen : ℕ) :
    kdf_x963 sha256 input sharedInfo outputLen =
      kdfSpec sha256 input sharedInfo outputLen := by
  unfold kdf_x963 kdfSpec
  have hfg : (fun i => sha256 (input ++ beBytes 4 (1 + i) ++ sharedInfo))
      = (fun i => sha256 (input ++ beBytes 4 (i + 1) ++ sharedInfo)) := by
    funext i
    have hci : 1 + i = i + 1 := by omega
    rw [hci]
  rw [kdfLoop_eq_blocks sha256 hsha input sharedInfo outputLen (outputLen + 1) 1 []
    (by simp only [List.length_nil, Nat.sub_zero]; omega)]
  simp only [List.length_nil, Nat.sub_zero, List.nil_append, hfg]

/-- C1.  For every nonnegative counter, `derive_key_at` computes exactly the
spec's rolling-key derivation (`counter`-fold iterated `kdf(·,"update",32)`
from `sk0`, 72-byte diversification split 36/36 into `u`/`v`,
`d_i = (d0·u_i + v_i) mod q`, public x-coordinate of `d_i·G` big-endian in 28
bytes), and the KDF itself is the truncated concatenation of
`SHA256(input ‖ be32(i) ‖ shared_info)` for `i = 1, 2, …`. -/
theorem derive_key_at_spec (sha256 : List ℕ → List ℕ) (ecPointX : ℕ → ℕ)
    (hsha : ∀ x, (sha256 x).length = 32) (master_private sk0 : List ℕ)
    (counter : ℤ) (hc : 0 ≤ counter) :
    derive_key_at sha256 ecPointX master_private sk0 counter =
      deriveKeyAtSpec sha256 ecPointX master_private sk0 counter.toNat ∧
    (∀ input sharedInfo outputLen,
      kdf_x963 sha256 input sharedInfo outputLen =
        kdfSpec sha256 input sharedInfo outputLen) := by
  have hk : ∀ input sharedInfo outputLen,
      kdf_x963 sha256 input sharedInfo outputLen =
        kdfSpec sha256 input sharedInfo outputLen :=
    fun i s o => kdf_x963_eq_spec sha256 hsha i s o
  refine ⟨?_, hk⟩
  have hfun : (fun s => kdf_x963 sha256 s updateInfo 32) =
      (fun s => kdfSpec sha256 s updateInfo 32) := by
    funext s; exact hk s updateInfo 32
  unfold derive_key_at deriveKeyAtSpec
  simp only [hfun, hk]

/-- Witness for C1 at a concrete instance (`counter = 2`, a constant 32-byte
digest function, identity point abstraction). -/
theorem derive_key_at_spec_witness :
    (∀ x : List ℕ, ((fun _ : List ℕ => List.replicate 32 7) x).length = 32) ∧
    (0 : ℤ) ≤ 2 ∧
    derive_key_at (fun _ => List.replicate 32 7) (fun n => n) [1, 2] [3] 2 =
      deriveKeyAtSpec (fun _ => List.replicate 32 7) (fun n => n) [1, 2] [3]
        (Int.toNat 2) := by
  refine ⟨fun _ => by simp, by norm_num, ?_⟩
  exact (derive_key_at_spec (fun _ => List.replicate 32 7) (fun n => n)
    (fun _ => by simp) [1, 2] [3] 2 (by norm_num)).1

/-- C2 (code evaluation at the failing input).  For a negative counter the
code does NOT fail: `for _ in range(counter)` simply runs zero times, so
`derive_key_at(master, sk0, -1)` silently returns the same key pair as
`counter = 0` instead of raising an out-of-range error. -/
theorem derive_key_at_neg_counter (sha256 : List ℕ → List ℕ)
    (ecPointX : ℕ → ℕ) (master_private sk0 : List ℕ) :
    derive_key_at sha256 ecPointX master_private sk0 (-1) =
      derive_key_at sha256 ecPointX master_private sk0 0 := rfl

-- ---------------------------------------------------------------------------
-- fmdn.py : SECP160R1 arithmetic
-- ---------------------------------------------------------------------------

/-- SECP160R1 field prime. -/
def SECP160R1_P : ℤ := 0xFFFFFFFFFFFFFFFFFFFFFFFFFFFFFFFF7FFFFFFF

/-- SECP160R1 curve coefficient a. -/
def SECP160R1_A : ℤ := 0xFFFFFFFFFFFFFFFFFFFFFFFFFFFFFFFF7FFFFFFC

/-- SECP160R1 curve coefficient b. -/
def SECP160R1_B : ℤ := 0x1C97BEFC54BD7A8B65ACF89F81D4D4ADC565FA45

/-- SECP160R1 group order. -/
def SECP160R1_N : ℕ := 0x0100000000000000000001F4C8F927AED3CA752257

/-- SECP160R1 generator x. -/
def SECP160R1_GX : ℤ := 0x4A96B5688EF573284664698968C38BB913CBFC82

/-- SECP160R1 generator y. -/
def SECP160R1_GY : ℤ := 0x23A628553168947D59DCC912042351377AC5FB32

/-- `_extended_gcd(a, b)`, returning `(g, x, y)`.  Lean's `%` and `/` on `ℤ`
(`emod`/`ediv`) agree with Python's floor `%`/`//` whenever the divisor is
nonnegative, which holds in every call reached from `modinv` (the first
argument is normalised into `[0, m)` and the second is the positive curve
prime). -/
def egcd (a b : ℤ) : ℤ × ℤ × ℤ :=
  if ha : a = 0 then (b, 0, 1)
  else
    let r := egcd (b % a) a
    (r.1, r.2.2 - b / a * r.2.1, r.2.1)
termination_by a.natAbs
decreasing_by
  rcases lt_or_gt_of_ne ha with hneg | hpos
  · have h1 : b % a = b % (-(-a)) := by ring_nf
    rw [Int.emod_neg] at h1
    have h2 : 0 ≤ b % a := Int.emod_nonneg b ha
    have h3 : b % (-a) < -a := Int.emod_lt_of_pos b (by omega)
    omega
  · have h2 : 0 ≤ b % a := Int.emod_nonneg b ha
    have h3 : b % a < a := Int.emod_lt_of_pos b hpos
    omega

/-- `modinv(a, m)`: modular inverse via extended Euclid; `none` models the
`ValueError` raised when no inverse exists. -/
def modinv (a m : ℤ) : Option ℤ :=
  let a2 := if a < 0 then a % m else a
  let r := egcd a2 m
  if r.1 = 1 then some (r.2.1 % m) else none

/-- `point_add(x1, y1, x2, y2)` on SECP160R1; `(0, 0)` encodes the identity,
`none` models the `ValueError` escaping from `modinv`. -/
def point_add (x1 y1 x2 y2 : ℤ) : Option (ℤ × ℤ) :=
  if x1 = 0 ∧ y1 = 0 then some (x2, y2)
  else if x2 = 0 ∧ y2 = 0 then some (x1, y1)
  else if x1 = x2 ∧ y1 = y2 then
    (modinv (2 * y1) SECP160R1_P).map (fun inv =>
      let lam := (3 * x1 * x1 + SECP160R1_A) * inv % SECP160R1_P
      let x3 := (lam * lam - x1 - x2) % SECP160R1_P
      (x3, (lam * (x1 - x3) - y1) % SECP160R1_P))
  else if x1 = x2 then some (0, 0)
  else
    (modinv (x2 - x1) SECP160R1_P).map (fun inv =>
      let lam := (y2 - y1) * inv % SECP160R1_P
      let x3 := (lam * lam - x1 - x2) % SECP160R1_P
      (x3, (lam * (x1 - x3) - y1) % SECP160R1_P))

/-- The `while k > 0` loop of `scalar_mul` (double-and-add). -/
def scalarMulLoop (k : ℕ) (rx ry qx qy : ℤ) : Option (ℤ × ℤ) :=
  if k = 0 then some (rx, ry)
  else do
    let r' ← if k % 2 = 1 then point_add rx ry qx qy else some (rx, ry)
    let q' ← point_add qx qy qx qy
    scalarMulLoop (k / 2) r'.1 r'.2 q'.1 q'.2
termination_by k
decreasing_by exact Nat.div_lt_self (Nat.pos_of_ne_zero (by assumption)) (by norm_num)

/-- `scalar_mul(k, x, y)`: double-and-add scalar multiplication starting from
the identity `(0, 0)`.  Every caller passes a nonnegative `k`. -/
def scalar_mul (k : ℕ) (x y : ℤ) : Option (ℤ × ℤ) :=
  scalarMulLoop k 0 0 x y

-- ---------------------------------------------------------------------------
-- fmdn.py : EID computation
-- ---------------------------------------------------------------------------

/-- Bit-masking width `K` (module constant in fmdn.py). -/
def K : ℕ := 10

/-- `n.to_bytes(len, "big")` for a Python int that may be out of range:
`none` models the `OverflowError`. -/
def intToBytesBE (len : ℕ) (n : ℤ) : Option (List ℕ) :=
  if 0 ≤ n ∧ n < (256 : ℤ) ^ len then some (beBytes len n.toNat) else none

/-- Result dict of `compute_eid`. -/
structure EidResult where
  eid : List ℕ
  hashed_flags : ℕ
  masked_ts : ℕ
  scalar_r : ℕ
  deriving DecidableEq, Repr

/-- `compute_eid(eik, unix_ts, battery_flags)`.  `aes eik block` abstracts the
library AES-ECB-256 encryption of the 32-byte block under the 32-byte key;
`sha256` abstracts the SHA-256 digest.  `none` models the `assert` on the EIK
length, a `ValueError` escaping from the curve arithmetic, and the
`OverflowError` of `to_bytes` (possible for `scalar_r` because the SECP160R1
order slightly exceeds `2^160`). -/
def compute_eid (aes : List ℕ → List ℕ → List ℕ) (sha256 : List ℕ → List ℕ)
    (eik : List ℕ) (unix_ts : ℕ) (battery_flags : ℕ) : Option EidResult :=
  if eik.length = 32 then
    let mask := 0xFFFFFC00
    let masked_ts := unix_ts &&& mask
    let block := List.replicate 11 0xFF ++ [K] ++ beBytes 4 masked_ts ++
      List.replicate 11 0 ++ [K] ++ beBytes 4 masked_ts
    let r_prime := aes eik block
    let r_int := beVal r_prime % SECP160R1_N
    match scalar_mul r_int SECP160R1_GX SECP160R1_GY with
    | none => none
    | some (rx, _ry) =>
      match intToBytesBE 20 rx, intToBytesBE 20 (r_int : ℤ) with
      | some eid, some r_bytes =>
        some ⟨eid, (sha256 r_bytes).headD 0 ^^^ battery_flags, masked_ts, r_int⟩
      | _, _ => none
  else none

/-- Byte `i` of the AES input block as the spec lays it out: bytes 0–10 are
`0xFF`, byte 11 is `K = 10`, bytes 12–15 the big-endian masked timestamp,
bytes 16–26 are zero, byte 27 is `K`, bytes 28–31 the masked timestamp
again. -/
def eidBlockByte (ts i : ℕ) : ℕ :=
  if i < 11 then 0xFF
  else if i = 11 then 10
  else if i < 16 then (beBytes 4 ts).getD (i - 12) 0
  else if i < 27 then 0
  else if i = 27 then 10
  else (beBytes 4 ts).getD (i - 28) 0

/-- EID computation as the spec phrases it: mask the low 10 bits of the 32-bit
timestamp, build the 32-byte block positionally, AES-ECB-256 encrypt, reduce
the whole ciphertext big-endian mod the SECP160R1 order, multiply the
generator, output the 20-byte big-endian x-coordinate and
`SHA256(be20(r))[0] XOR battery_flags`. -/
def computeEidSpec (aes : List ℕ → List ℕ → List ℕ) (sha256 : List ℕ → List ℕ)
    (eik : List ℕ) (unix_ts : ℕ) (battery_flags : ℕ) : Option EidResult :=
  let masked_ts := unix_ts &&& (2 ^ 32 - 2 ^ 10)
  let block := (List.range 32).map (eidBlockByte masked_ts)
  let r := beVal (aes eik block) % SECP160R1_N
  match scalar_mul r SECP160R1_GX SECP160R1_GY with
  | none => none
  | some (rx, _ry) =>
    match intToBytesBE 20 rx, intToBytesBE 20 (r : ℤ) with
    | some eid, some r_bytes =>
      some ⟨eid, (sha256 r_bytes).headD 0 ^^^ battery_flags, masked_ts, r⟩
    | _, _ => none

theorem beBytes_four (n : ℕ) :
    beBytes 4 n = [n / 16777216 % 256, n / 65536 % 256, n / 256 % 256, n % 256] := by
  simp [beBytes, List.range_succ]

theorem eidBlock_positional (ts : ℕ) :
    List.replicate 11 0xFF ++ [K] ++ beBytes 4 ts ++
      List.replicate 11 0 ++ [K] ++ beBytes 4 ts =
    (List.range 32).map (eidBlockByte ts) := by
  have hr : List.range 32 = [0, 1, 2, 3, 4, 5, 6, 7, 8, 9, 10, 11, 12, 13, 14,
      15, 16, 17, 18, 19, 20, 21, 22, 23, 24, 25, 26, 27, 28, 29, 30, 31] := by
    decide
  rw [hr, beBytes_four]
  simp only [List.map_cons, List.map_nil, eidBlockByte, beBytes_four]
  norm_num [K, List.replicate, List.getD]

/-- The low 10 bits of the masked timestamp are zero. -/
theorem maskedTs_low_bits (ts : ℕ) : (ts &&& 0xFFFFFC00) % 1024 = 0 := by
  have h : (ts &&& 0xFFFFFC00) % 2 ^ 10 = 0 := by
    apply Nat.eq_of_testBit_eq
    intro i
    rw [Nat.testBit_mod_two_pow]
    rcases Nat.lt_or_ge i 10 with hi | hi
    · have hmask : Nat.testBit 0xFFFFFC00 i = false := by
        interval_cases i <;> decide
      simp [Nat.testBit_land, hmask]
    · have hni : ¬ i < 10 := by omega
      simp [hni, Nat.zero_testBit]
  simpa using h

/-- C3.  `compute_eid` implements the spec pipeline: mask the low 10 bits of
the 32-bit timestamp (`0xFFFFFC00 = 2^32 - 2^10`, so the masked value has its
low 10 bits zero), build the exact positional 32-byte AES block, encrypt with
AES-ECB-256 under the EIK, reduce the full ciphertext big-endian mod the
SECP160R1 order `n` to get `r`, compute `R = r·G`, and return the 20-byte
big-endian `R.x` together with `SHA256(be20(r))[0] XOR battery_flags`. -/
theorem compute_eid_spec (aes : List ℕ → List ℕ → List ℕ)
    (sha256 : List ℕ → List ℕ) (eik : List ℕ) (unix_ts battery_flags : ℕ)
    (hlen : eik.length = 32) :
    compute_eid aes sha256 eik unix_ts battery_flags =
      computeEidSpec aes sha256 eik unix_ts battery_flags ∧
    (unix_ts &&& 0xFFFFFC00) % 1024 = 0 := by
  constructor
  · unfold compute_eid computeEidSpec
    rw [if_pos hlen]
    have hm : (2 : ℕ) ^ 32 - 2 ^ 10 = 0xFFFFFC00 := by norm_num
    simp only [hm, ← eidBlock_positional]
  · exact maskedTs_low_bits unix_ts

/-- Witness for C3 at a concrete instance (all-zero EIK, an AES abstraction
returning a constant block, timestamp 4242). -/
theorem compute_eid_spec_witness :
    (List.replicate 32 0).length = 32 ∧
    compute_eid (fun _ _ => List.replicate 32 0) (fun _ => List.replicate 32 1)
        (List.replicate 32 0) 4242 0x20 =
      computeEidSpec (fun _ _ => List.replicate 32 0)
        (fun _ => List.replicate 32 1) (List.replicate 32 0) 4242 0x20 :=
  ⟨by simp,
    (compute_eid_spec (fun _ _ => List.replicate 32 0)
      (fun _ => List.replicate 32 1) (List.replicate 32 0) 4242 0x20
      (by simp)).1⟩

-- ---------------------------------------------------------------------------
-- SECP160R1 point addition: commutativity and identity (C10)
-- ---------------------------------------------------------------------------

theorem egcd_bezout (a b : ℤ) :
    a * (egcd a b).2.1 + b * (egcd a b).2.2 = (egcd a b).1 := by
  by_cases ha : a = 0
  · subst ha
    rw [egcd]
    simp
  · have ih := egcd_bezout (b % a) a
    rw [egcd, dif_neg ha]
    have hmod : b % a = b - a * (b / a) := Int.emod_def b a
    simp only
    linear_combination ih - (egcd (b % a) a).2.1 * hmod
termination_by a.natAbs
decreasing_by
  rcases lt_or_gt_of_ne ha with hneg | hpos
  · have h1 : b % a = b % (-(-a)) := by ring_nf
    rw [Int.emod_neg] at h1
    have h2 : 0 ≤ b % a := Int.emod_nonneg b ha
    have h3 : b % (-a) < -a := Int.emod_lt_of_pos b (by omega)
    omega
  · have h2 : 0 ≤ b % a := Int.emod_nonneg b ha
    have h3 : b % a < a := Int.emod_lt_of_pos b hpos
    omega

theorem egcd_fst_dvd (a b : ℤ) : (egcd a b).1 ∣ a ∧ (egcd a b).1 ∣ b := by
  by_cases ha : a = 0
  · subst ha
    rw [egcd]
    simp
  · have ih := egcd_fst_dvd (b % a) a
    rw [egcd, dif_neg ha]
    simp only
    refine ⟨ih.2, ?_⟩
    have hsum : (egcd (b % a) a).1 ∣ a * (b / a) + b % a :=
      dvd_add (Dvd.dvd.mul_right ih.2 _) ih.1
    have hmod : a * (b / a) + b % a = b := by
      have := Int.emod_def b a
      linarith
    rwa [hmod] at hsum
termination_by a.natAbs
decreasing_by
  rcases lt_or_gt_of_ne ha with hneg | hpos
  · have h1 : b % a = b % (-(-a)) := by ring_nf
    rw [Int.emod_neg] at h1
    have h2 : 0 ≤ b % a := Int.emod_nonneg b ha
    have h3 : b % (-a) < -a := Int.emod_lt_of_pos b (by omega)
    omega
  · have h2 : 0 ≤ b % a := Int.emod_nonneg b ha
    have h3 : b % a < a := Int.emod_lt_of_pos b hpos
    omega

theorem egcd_fst_pos (a b : ℤ) (ha0 : 0 ≤ a) (hb : 0 < b) : 0 < (egcd a b).1 := by
  by_cases ha : a = 0
  · subst ha
    rw [egcd]
    simpa using hb
  · have ih := egcd_fst_pos (b % a) a (Int.emod_nonneg b ha) (by omega)
    rw [egcd, dif_neg ha]
    simpa using ih
termination_by a.natAbs
decreasing_by
  have h2 : 0 ≤ b % a := Int.emod_nonneg b ha
  have h3 : b % a < a := Int.emod_lt_of_pos b (by omega)
  omega

theorem modinv_norm_nonneg (a m : ℤ) (hm : 0 < m) :
    0 ≤ (if a < 0 then a % m else a) := by
  split_ifs with h
  · exact Int.emod_nonneg a (by omega)
  · omega

theorem modinv_norm_emod (a m : ℤ) :
    (if a < 0 then a % m else a) % m = a % m := by
  split_ifs with h
  · exact Int.emod_emod_of_dvd a dvd_rfl
  · rfl

theorem modinv_mul (a m v : ℤ) (h : modinv a m = some v) :
    a * v % m = 1 % m := by
  simp only [modinv] at h
  set a2 := (if a < 0 then a % m else a) with ha2
  by_cases hg : (egcd a2 m).1 = 1
  · rw [if_pos hg] at h
    have hv : v = (egcd a2 m).2.1 % m := (Option.some.inj h).symm
    have hbez := egcd_bezout a2 m
    rw [hg] at hbez
    have h1 : a * v ≡ a2 * (egcd a2 m).2.1 [ZMOD m] := by
      apply Int.ModEq.mul
      · exact (modinv_norm_emod a m).symm
      · rw [hv]
        exact Int.emod_emod_of_dvd _ dvd_rfl
    calc a * v % m
        = a2 * (egcd a2 m).2.1 % m := h1
      _ = (a2 * (egcd a2 m).2.1 + m * (egcd a2 m).2.2) % m := by
          rw [Int.add_mul_emod_self_left]
      _ = 1 % m := by rw [hbez]
  · rw [if_neg hg] at h
    exact Option.noConfusion h

theorem modinv_isSome_iff (a m : ℤ) (hm : 0 < m) :
    (modinv a m).isSome ↔ ∃ u, a * u % m = 1 % m := by
  constructor
  · intro h
    obtain ⟨v, hv⟩ := Option.isSome_iff_exists.mp h
    exact ⟨v, modinv_mul a m v hv⟩
  · rintro ⟨u, hu⟩
    set a2 := (if a < 0 then a % m else a) with ha2
    have h0 : 0 ≤ a2 := modinv_norm_nonneg a m hm
    have hpos : 0 < (egcd a2 m).1 := egcd_fst_pos _ m h0 hm
    have hdvd := egcd_fst_dvd a2 m
    have hma : m ∣ a - a2 := by
      have h1 : a2 ≡ a [ZMOD m] := modinv_norm_emod a m
      exact Int.ModEq.dvd h1
    have hga : (egcd a2 m).1 ∣ a := by
      have hsum : (egcd a2 m).1 ∣ (a - a2) + a2 :=
        dvd_add (dvd_trans hdvd.2 hma) hdvd.1
      have h2 : (a - a2) + a2 = a := by ring
      rwa [h2] at hsum
    have hmu : m ∣ 1 - a * u := by
      have h3 : a * u ≡ 1 [ZMOD m] := hu
      exact Int.ModEq.dvd h3
    have hg1 : (egcd a2 m).1 ∣ 1 := by
      have hsum : (egcd a2 m).1 ∣ (1 - a * u) + a * u :=
        dvd_add (dvd_trans hdvd.2 hmu) (Dvd.dvd.mul_right hga u)
      have h4 : (1 - a * u) + a * u = (1 : ℤ) := by ring
      rwa [h4] at hsum
    have hg : (egcd a2 m).1 = 1 := by
      rcases Int.isUnit_iff.mp (isUnit_of_dvd_one hg1) with h | h
      · exact h
      · omega
    simp only [modinv, ← ha2, hg]
    simp

theorem secp_p_pos : (0 : ℤ) < SECP160R1_P := by norm_num [SECP160R1_P]

/-- The two modular inverses used by the swapped and unswapped general-case
additions exist together. -/
theorem modinv_neg_isSome {a : ℤ} (h : (modinv a SECP160R1_P).isSome) :
    (modinv (-a) SECP160R1_P).isSome := by
  rw [modinv_isSome_iff _ _ secp_p_pos] at h ⊢
  obtain ⟨u, hu⟩ := h
  exact ⟨-u, by rw [show -a * -u = a * u by ring]; exact hu⟩

theorem point_add_comm_aux (x1 y1 x2 y2 : ℤ) :
    point_add x1 y1 x2 y2 = point_add x2 y2 x1 y1 := by
  by_cases h3 : x1 = x2 ∧ y1 = y2
  · obtain ⟨rfl, rfl⟩ := h3
    rfl
  by_cases h1 : x1 = 0 ∧ y1 = 0 <;> by_cases h2 : x2 = 0 ∧ y2 = 0
  · exact absurd (by rw [h1.1, h1.2, h2.1, h2.2]; exact ⟨rfl, rfl⟩) h3
  · rw [point_add, if_pos h1, point_add, if_neg h2, if_pos h1]
  · rw [point_add, if_neg h1, if_pos h2, point_add, if_pos h2]
  · -- both nonzero, not equal
    by_cases h4 : x1 = x2
    · have hy : y1 ≠ y2 := fun hc => h3 ⟨h4, hc⟩
      have h3s : ¬ (x2 = x1 ∧ y2 = y1) := fun hc => h3 ⟨h4, hc.2.symm⟩
      rw [point_add, if_neg h1, if_neg h2, if_neg h3, if_pos h4,
        point_add, if_neg h2, if_neg h1, if_neg h3s, if_pos h4.symm]
    · have h3s : ¬ (x2 = x1 ∧ y2 = y1) := fun hc => h4 hc.1.symm
      have h4s : x2 ≠ x1 := fun hc => h4 hc.symm
      rw [point_add, if_neg h1, if_neg h2, if_neg h3, if_neg h4,
        point_add, if_neg h2, if_neg h1, if_neg h3s, if_neg h4s]
      rcases hinv : modinv (x2 - x1) SECP160R1_P with _ | v
      · rcases hinv2 : modinv (x1 - x2) SECP160R1_P with _ | w
        · rfl
        · exfalso
          have hs : (modinv (-(x1 - x2)) SECP160R1_P).isSome :=
            modinv_neg_isSome (by rw [hinv2]; rfl)
          rw [show -(x1 - x2) = x2 - x1 by ring, hinv] at hs
          exact Bool.noConfusion hs
      · have hs : (modinv (-(x2 - x1)) SECP160R1_P).isSome :=
          modinv_neg_isSome (by rw [hinv]; rfl)
        rw [show -(x2 - x1) = x1 - x2 by ring] at hs
        obtain ⟨w, hinv2⟩ := Option.isSome_iff_exists.mp hs
        rw [hinv2]
        simp only [Option.map_some']
        -- modular facts
        have hv : (x2 - x1) * v % SECP160R1_P = 1 % SECP160R1_P :=
          modinv_mul _ _ _ hinv
        have hw : (x1 - x2) * w % SECP160R1_P = 1 % SECP160R1_P :=
          modinv_mul _ _ _ hinv2
        obtain ⟨c2, hc2⟩ : SECP160R1_P ∣ (x2 - x1) * v - 1 := by
          have : (1 : ℤ) ≡ (x2 - x1) * v [ZMOD SECP160R1_P] := hv.symm
          exact Int.ModEq.dvd this
        obtain ⟨c3, hc3⟩ : SECP160R1_P ∣ (x1 - x2) * w - 1 := by
          have : (1 : ℤ) ≡ (x1 - x2) * w [ZMOD SECP160R1_P] := hw.symm
          exact Int.ModEq.dvd this
        have hwv : SECP160R1_P ∣ w + v :=
          ⟨-w * c2 - v * c3, by linear_combination (-w) * hc2 - v * hc3⟩
        have hlam : (y1 - y2) * w % SECP160R1_P = (y2 - y1) * v % SECP160R1_P := by
          have hd : SECP160R1_P ∣ (y2 - y1) * v - (y1 - y2) * w := by
            obtain ⟨cw, hcw⟩ := hwv
            exact ⟨-(y1 - y2) * cw, by linear_combination (-(y1 - y2)) * hcw⟩
          have : (y1 - y2) * w ≡ (y2 - y1) * v [ZMOD SECP160R1_P] :=
            Int.modEq_iff_dvd.mpr hd
          exact this
        rw [hlam]
        set lam := (y2 - y1) * v % SECP160R1_P with hlamdef
        have hx3 : (lam * lam - x2 - x1) % SECP160R1_P =
            (lam * lam - x1 - x2) % SECP160R1_P := by
          rw [show lam * lam - x2 - x1 = lam * lam - x1 - x2 by ring]
        rw [hx3]
        set x3 := (lam * lam - x1 - x2) % SECP160R1_P with hx3def
        have hlamv : SECP160R1_P ∣ lam - (y2 - y1) * v := by
          rw [hlamdef]
          exact ⟨-((y2 - y1) * v / SECP160R1_P), by rw [Int.emod_def]; ring⟩
        obtain ⟨d1, hd1⟩ := hlamv
        have hy3 : SECP160R1_P ∣ (lam * (x2 - x3) - y2) - (lam * (x1 - x3) - y1) := by
          refine ⟨-d1 * (x1 - x2) + (y2 - y1) * c2, ?_⟩
          linear_combination (-(x1 - x2)) * hd1 + (y2 - y1) * hc2
        have : lam * (x1 - x3) - y1 ≡ lam * (x2 - x3) - y2 [ZMOD SECP160R1_P] :=
          Int.modEq_iff_dvd.mpr hy3
        simp only [Option.some.injEq, Prod.mk.injEq]
        exact ⟨trivial, this⟩

/-- C10.  SECP160R1 `point_add` is commutative on reduced coordinates wherever
it is defined, and `(0, 0)` is a two-sided identity. -/
theorem point_add_comm_id :
    (∀ x1 y1 x2 y2 : ℤ,
      0 ≤ x1 → x1 < SECP160R1_P → 0 ≤ y1 → y1 < SECP160R1_P →
      0 ≤ x2 → x2 < SECP160R1_P → 0 ≤ y2 → y2 < SECP160R1_P →
      (point_add x1 y1 x2 y2).isSome →
      point_add x1 y1 x2 y2 = point_add x2 y2 x1 y1) ∧
    (∀ x y : ℤ, point_add 0 0 x y = some (x, y) ∧
      point_add x y 0 0 = some (x, y)) := by
  constructor
  · intro x1 y1 x2 y2 _ _ _ _ _ _ _ _ _
    exact point_add_comm_aux x1 y1 x2 y2
  · intro x y
    constructor
    · rw [point_add, if_pos ⟨rfl, rfl⟩]
    · by_cases hxy : x = 0 ∧ y = 0
      · obtain ⟨rfl, rfl⟩ := hxy
        rfl
      · rw [point_add, if_neg hxy, if_pos ⟨rfl, rfl⟩]

/-- Witness for C10 at a concrete reduced pair (the identity and the
generator). -/
theorem point_add_comm_id_witness :
    ((0 : ℤ) ≤ 0 ∧ (0 : ℤ) < SECP160R1_P ∧
      (0 : ℤ) ≤ SECP160R1_GX ∧ SECP160R1_GX < SECP160R1_P ∧
      (0 : ℤ) ≤ SECP160R1_GY ∧ SECP160R1_GY < SECP160R1_P ∧
      (point_add 0 0 SECP160R1_GX SECP160R1_GY).isSome) ∧
    point_add 0 0 SECP160R1_GX SECP160R1_GY =
      point_add SECP160R1_GX SECP160R1_GY 0 0 := by
  constructor
  · refine ⟨le_refl 0, secp_p_pos, ?_, ?_, ?_, ?_, ?_⟩
    · norm_num [SECP160R1_GX]
    · norm_num [SECP160R1_GX, SECP160R1_P]
    · norm_num [SECP160R1_GY]
    · norm_num [SECP160R1_GY, SECP160R1_P]
    · rfl
  · exact point_add_comm_id.1 0 0 SECP160R1_GX SECP160R1_GY
      (le_refl 0) secp_p_pos (le_refl 0) secp_p_pos
      (by norm_num [SECP160R1_GX]) (by norm_num [SECP160R1_GX, SECP160R1_P])
      (by norm_num [SECP160R1_GY]) (by norm_num [SECP160R1_GY, SECP160R1_P])
      (by rfl)

-- ---------------------------------------------------------------------------
-- findmy.py : decrypt_report (C4)
-- ---------------------------------------------------------------------------

/-- Apple's reference epoch 2001-01-01 (module constant `APPLE_EPOCH`). -/
def APPLE_EPOCH : ℤ := 978307200

/-- `struct.unpack(">i", bs)`: big-endian signed 32-bit integer. -/
def sint32 (bs : List ℕ) : ℤ :=
  if beVal bs < 2 ^ 31 then (beVal bs : ℤ) else (beVal bs : ℤ) - 2 ^ 32

/-- The dict returned by a successful `decrypt_report` (the derived
`datetime`/ISO string is omitted; Python's float division by `1e7` is modelled
as exact rational division). -/
structure AppleReport where
  lat : ℚ
  lon : ℚ
  confidence : ℕ
  status : ℕ
  timestamp : ℤ
  deriving DecidableEq, Repr

/-- `decrypt_report(report_payload_b64, private_key_int)` after base64
decoding (`data = b64decode(...)`), over the raw payload bytes.
`ecdh priv eph` abstracts `from_encoded_point` followed by the ECDH exchange
(`none` = the caught point-parsing failure); `aesGcm key iv ct tag` abstracts
AES-GCM (`none` = the caught `InvalidTag`).  The result is doubly optional:
the outer `none` models an uncaught `struct.error`/`IndexError` when the
plaintext is shorter than 10 bytes, `some none` the two caught failure paths
that return Python `None`. -/
def decrypt_report (sha256 : List ℕ → List ℕ)
    (ecdh : ℕ → List ℕ → Option (List ℕ))
    (aesGcm : List ℕ → List ℕ → List ℕ → List ℕ → Option (List ℕ))
    (data0 : List ℕ) (private_key_int : ℕ) : Option (Option AppleReport) :=
  let data := if 88 < data0.length then data0.take 4 ++ data0.drop 5 else data0
  let timestamp : ℤ := (beVal (data.take 4) : ℤ) + APPLE_EPOCH
  let eph_key_bytes := (data.drop 5).take 57
  match ecdh private_key_int eph_key_bytes with
  | none => some none
  | some shared_key =>
    let sym_key := sha256 (shared_key ++ [0, 0, 0, 1] ++ eph_key_bytes)
    let decryption_key := sym_key.take 16
    let iv := sym_key.drop 16
    let enc_data := (data.drop 62).take 10
    let tag := data.drop 72
    match aesGcm decryption_key iv enc_data tag with
    | none => some none
    | some plaintext =>
      if 10 ≤ plaintext.length then
        some (some
          { lat := (sint32 (plaintext.take 4) : ℚ) / 10000000,
            lon := (sint32 ((plaintext.drop 4).take 4) : ℚ) / 10000000,
            confidence := plaintext.getD 8 0,
            status := plaintext.getD 9 0,
            timestamp := timestamp })
      else none

/-- `decrypt_report` as the spec phrases it: the byte at index 4 is removed
exactly when the payload exceeds 88 bytes, the ephemeral key is bytes 5..62,
the ciphertext bytes 62..72, the tag everything from byte 72, and the session
material is `SHA256(shared ‖ 00000001 ‖ eph)` split into a 16-byte AES key and
the last 16 bytes as IV. -/
def decryptReportSpec (sha256 : List ℕ → List ℕ)
    (ecdh : ℕ → List ℕ → Option (List ℕ))
    (aesGcm : List ℕ → List ℕ → List ℕ → List ℕ → Option (List ℕ))
    (data0 : List ℕ) (private_key_int : ℕ) : Option (Option AppleReport) :=
  let data := if 88 < data0.length then data0.eraseIdx 4 else data0
  let timestamp : ℤ := (beVal (data.take 4) : ℤ) + APPLE_EPOCH
  let eph_key_bytes := (data.take 62).drop 5
  match ecdh private_key_int eph_key_bytes with
  | none => some none
  | some shared_key =>
    let sym_key := sha256 (shared_key ++ [0, 0, 0, 1] ++ eph_key_bytes)
    let decryption_key := sym_key.take 16
    let iv := sym_key.drop (sym_key.length - 16)
    let enc_data := (data.take 72).drop 62
    let tag := data.drop 72
    match aesGcm decryption_key iv enc_data tag with
    | none => some none
    | some plaintext =>
      if 10 ≤ plaintext.length then
        some (some
          { lat := (sint32 (plaintext.take 4) : ℚ) / 10000000,
            lon := (sint32 ((plaintext.drop 4).take 4) : ℚ) / 10000000,
            confidence := plaintext.getD 8 0,
            status := plaintext.getD 9 0,
            timestamp := timestamp })
      else none

/-- C4.  `decrypt_report` matches the spec layout: splice out byte 4 iff the
payload exceeds 88 bytes, ephemeral key = bytes 5..62, ciphertext = bytes
62..72, tag = bytes 72.., session material = `SHA256(shared ‖ 0x00000001 ‖
eph)` with the first 16 bytes as AES key and the last 16 as IV. -/
theorem decrypt_report_spec (sha256 : List ℕ → List ℕ)
    (ecdh : ℕ → List ℕ → Option (List ℕ))
    (aesGcm : List ℕ → List ℕ → List ℕ → List ℕ → Option (List ℕ))
    (data0 : List ℕ) (private_key_int : ℕ)
    (hsha : ∀ x, (sha256 x).length = 32) :
    decrypt_report sha256 ecdh aesGcm data0 private_key_int =
      decryptReportSpec sha256 ecdh aesGcm data0 private_key_int := by
  unfold decrypt_report decryptReportSpec
  simp only [List.eraseIdx_eq_take_drop_succ, List.drop_take, hsha]

/-- Witness for C4 at a concrete instance (a 90-byte payload exercising the
splice, trivial crypto abstractions). -/
theorem decrypt_report_spec_witness :
    (∀ x : List ℕ, ((fun _ : List ℕ => List.replicate 32 3) x).length = 32) ∧
    decrypt_report (fun _ => List.replicate 32 3) (fun _ e => some e)
        (fun _ _ ct _ => some ct) (List.replicate 90 1) 5 =
      decryptReportSpec (fun _ => List.replicate 32 3) (fun _ e => some e)
        (fun _ _ ct _ => some ct) (List.replicate 90 1) 5 :=
  ⟨fun _ => by simp,
    decrypt_report_spec (fun _ => List.replicate 32 3) (fun _ e => some e)
      (fun _ _ ct _ => some ct) (List.replicate 90 1) 5 (fun _ => by simp)⟩

-- ---------------------------------------------------------------------------
-- fmdn_fetch.py : minimal protobuf wire codec (C9, C5)
-- ---------------------------------------------------------------------------

/-- `_encode_varint(value)`. -/
def encodeVarint (value : ℕ) : List ℕ :=
  if h : 0x7F < value then
    ((value &&& 0x7F) ||| 0x80) :: encodeVarint (value >>> 7)
  else [value &&& 0x7F]
termination_by value
decreasing_by
  rw [Nat.shiftRight_eq_div_pow]
  exact Nat.div_lt_self (by omega) (by norm_num)

/-- `_encode_field(field_number, wire_type, data)`. -/
def encodeField (fieldNumber wireType : ℕ) (data : List ℕ) : List ℕ :=
  let tag := encodeVarint ((fieldNumber <<< 3) ||| wireType)
  if wireType = 0 then tag ++ data
  else if wireType = 2 then tag ++ encodeVarint data.length ++ data
  else if wireType = 5 then tag ++ data
  else tag ++ data

/-- The `while True` loop of `_decode_varint`; `none` models the
`ValueError("Varint extends beyond data")`. -/
def decodeVarintAux (data : List ℕ) (offset result shift : ℕ) : Option (ℕ × ℕ) :=
  if h : offset < data.length then
    let byte := data.getD offset 0
    let result2 := result ||| ((byte &&& 0x7F) <<< shift)
    if byte &&& 0x80 = 0 then some (result2, offset + 1)
    else decodeVarintAux data (offset + 1) result2 (shift + 7)
  else none
termination_by data.length - offset
decreasing_by omega

/-- `_decode_varint(data, offset)`: returns `(value, new_offset)`, `none`
models the raised `ValueError`. -/
def decodeVarint (data : List ℕ) (offset : ℕ) : Option (ℕ × ℕ) :=
  decodeVarintAux data offset 0 0

/-- A decoded protobuf value: a varint (`int` in Python) or a byte string. -/
inductive PVal where
  | vint (n : ℕ)
  | bytes (bs : List ℕ)
  deriving DecidableEq, Repr

/-- `fields.setdefault(field_number, []).append(value)` on an
insertion-ordered dict modelled as an association list. -/
def fieldsAppend (fs : List (ℕ × List (ℕ × PVal))) (k : ℕ) (v : ℕ × PVal) :
    List (ℕ × List (ℕ × PVal)) :=
  match fs with
  | [] => [(k, [v])]
  | (k2, vs) :: rest =>
    if k2 = k then (k2, vs ++ [v]) :: rest else (k2, vs) :: fieldsAppend rest k v

/-- The `while offset < len(data)` loop of `_decode_protobuf_fields`.  The
`fuel` argument only bounds the iteration count (each iteration advances
`offset` by at least one byte, so `data.length + 1` always suffices); the
outer `none` models a `ValueError` propagating from `_decode_varint`. -/
def decodeFieldsLoop (data : List ℕ) :
    ℕ → ℕ → List (ℕ × List (ℕ × PVal)) → Option (List (ℕ × List (ℕ × PVal)))
  | 0, _, _ => none
  | fuel + 1, offset, fields =>
    if offset < data.length then
      match decodeVarint data offset with
      | none => none
      | some (tag, off1) =>
        let fieldNumber := tag >>> 3
        let wireType := tag &&& 0x07
        if wireType = 0 then
          match decodeVarint data off1 with
          | none => none
          | some (value, off2) =>
            decodeFieldsLoop data fuel off2
              (fieldsAppend fields fieldNumber (wireType, PVal.vint value))
        else if wireType = 2 then
          match decodeVarint data off1 with
          | none => none
          | some (length, off2) =>
            decodeFieldsLoop data fuel (off2 + length)
              (fieldsAppend fields fieldNumber
                (wireType, PVal.bytes ((data.drop off2).take length)))
        else if wireType = 5 then
          decodeFieldsLoop data fuel (off1 + 4)
            (fieldsAppend fields fieldNumber
              (wireType, PVal.bytes ((data.drop off1).take 4)))
        else if wireType = 1 then
          decodeFieldsLoop data fuel (off1 + 8)
            (fieldsAppend fields fieldNumber
              (wireType, PVal.bytes ((data.drop off1).take 8)))
        else some fields
    else some fields

/-- `_decode_protobuf_fields(data)`. -/
def decodeProtobufFields (data : List ℕ) :
    Option (List (ℕ × List (ℕ × PVal))) :=
  decodeFieldsLoop data (data.length + 1) 0 []

theorem or_shiftLeft_add (a b s : ℕ) (h : a < 2 ^ s) :
    a ||| (b <<< s) = a + b * 2 ^ s := by
  have hkey := Nat.mul_add_lt_is_or h b
  calc a ||| (b <<< s) = (b <<< s) ||| a := Nat.lor_comm _ _
    _ = 2 ^ s * b ||| a := by rw [Nat.shiftLeft_eq, mul_comm]
    _ = 2 ^ s * b + a := hkey.symm
    _ = a + b * 2 ^ s := by ring

theorem and_127_eq_mod (n : ℕ) : n &&& 0x7F = n % 128 := by
  rw [show (0x7F : ℕ) = 2 ^ 7 - 1 by norm_num, Nat.and_pow_two_sub_one_eq_mod]

theorem and_128_of_lt (n : ℕ) (h : n < 128) : n &&& 0x80 = 0 := by
  rw [show (0x80 : ℕ) = 2 ^ 7 by norm_num, Nat.and_two_pow,
    Nat.testBit_lt_two_pow (by omega : n < 2 ^ 7)]
  simp

theorem contByte_and_128 (n : ℕ) : ((n &&& 0x7F) ||| 0x80) &&& 0x80 = 0x80 := by
  rw [Nat.and_distrib_right, Nat.land_assoc,
    show (0x7F : ℕ) &&& 0x80 = 0 by decide, Nat.and_zero, Nat.zero_or,
    show (0x80 : ℕ) &&& 0x80 = 0x80 by decide]

theorem contByte_and_127 (n : ℕ) : ((n &&& 0x7F) ||| 0x80) &&& 0x7F = n &&& 0x7F := by
  rw [Nat.and_distrib_right, Nat.land_assoc,
    show (0x7F : ℕ) &&& 0x7F = 0x7F by decide,
    show (0x80 : ℕ) &&& 0x7F = 0 by decide]
  simp

theorem getD_append_cons (pre : List ℕ) (x : ℕ) (rest : List ℕ) :
    (pre ++ x :: rest).getD pre.length 0 = x := by
  induction pre with
  | nil => simp
  | cons p ps ih => simpa [List.getD_cons_succ] using ih

theorem encodeVarint_length_pos (n : ℕ) : 1 ≤ (encodeVarint n).length := by
  rw [encodeVarint]
  split_ifs <;> simp

theorem decodeVarintAux_encode (n : ℕ) :
    ∀ (pre suffix : List ℕ) (result shift : ℕ), result < 2 ^ shift →
      decodeVarintAux (pre ++ (encodeVarint n ++ suffix)) pre.length result shift =
        some (result + n * 2 ^ shift, pre.length + (encodeVarint n).length) := by
  induction n using Nat.strong_induction_on with
  | _ n ih =>
    intro pre suffix result shift hres
    by_cases h : 0x7F < n
    · rw [encodeVarint, dif_pos h]
      have hlen : pre.length <
          (pre ++ (((n &&& 0x7F) ||| 0x80) :: (encodeVarint (n >>> 7) ++ suffix))).length := by
        simp
      rw [List.cons_append, decodeVarintAux, dif_pos hlen]
      simp only [getD_append_cons, contByte_and_128, contByte_and_127]
      rw [if_neg (by norm_num)]
      have hshape : pre ++ ((n &&& 0x7F) ||| 0x80) ::
          (encodeVarint (n >>> 7) ++ suffix) =
          (pre ++ [(n &&& 0x7F) ||| 0x80]) ++ (encodeVarint (n >>> 7) ++ suffix) := by
        simp
      have hlt : n >>> 7 < n := by
        rw [Nat.shiftRight_eq_div_pow]
        exact Nat.div_lt_self (by omega) (by norm_num)
      have hres2 : result ||| ((n &&& 0x7F) <<< shift) < 2 ^ (shift + 7) := by
        rw [or_shiftLeft_add _ _ _ hres, and_127_eq_mod]
        have hm : n % 128 ≤ 127 := by omega
        have hp : (2 : ℕ) ^ (shift + 7) = 2 ^ shift * 128 := by
          rw [pow_add]; norm_num
        calc result + n % 128 * 2 ^ shift
            < 2 ^ shift + 127 * 2 ^ shift := by
              have := Nat.mul_le_mul_right (2 ^ shift) hm
              omega
          _ ≤ 2 ^ shift * 128 := by ring_nf; omega
          _ = 2 ^ (shift + 7) := hp.symm
      have hstep := ih (n >>> 7) hlt (pre ++ [(n &&& 0x7F) ||| 0x80]) suffix
        (result ||| ((n &&& 0x7F) <<< shift)) (shift + 7) hres2
      have hplen : (pre ++ [(n &&& 0x7F) ||| 0x80]).length = pre.length + 1 := by simp
      rw [hshape, ← hplen, hstep]
      simp only [Option.some.injEq, Prod.mk.injEq, hplen, List.length_cons]
      constructor
      · rw [or_shiftLeft_add _ _ _ hres, and_127_eq_mod, Nat.shiftRight_eq_div_pow,
          show (2 : ℕ) ^ 7 = 128 by norm_num,
          show (2 : ℕ) ^ (shift + 7) = 2 ^ shift * 128 by rw [pow_add]; norm_num]
        have hsplit : n % 128 + 128 * (n / 128) = n := Nat.mod_add_div n 128
        have hmul : n * 2 ^ shift =
            n % 128 * 2 ^ shift + n / 128 * (2 ^ shift * 128) := by
          calc n * 2 ^ shift = (n % 128 + 128 * (n / 128)) * 2 ^ shift := by
                rw [hsplit]
            _ = n % 128 * 2 ^ shift + n / 128 * (2 ^ shift * 128) := by ring
        omega
      · omega
    · rw [encodeVarint, dif_neg h]
      have hlen : pre.length < (pre ++ ((n &&& 0x7F) :: suffix)).length := by simp
      rw [List.singleton_append, decodeVarintAux, dif_pos hlen]
      simp only [getD_append_cons]
      have h127 : n &&& 0x7F = n := by rw [and_127_eq_mod]; omega
      rw [h127, if_pos (and_128_of_lt n (by omega)), or_shiftLeft_add _ _ _ hres]
      simp [h127]

theorem decodeVarint_encode (n : ℕ) (pre suffix : List ℕ) :
    decodeVarint (pre ++ (encodeVarint n ++ suffix)) pre.length =
      some (n, pre.length + (encodeVarint n).length) := by
  have := decodeVarintAux_encode n pre suffix 0 0 (by norm_num)
  simpa [decodeVarint] using this

theorem decodeVarint_encode_zero (n : ℕ) (suffix : List ℕ) :
    decodeVarint (encodeVarint n ++ suffix) 0 =
      some (n, (encodeVarint n).length) := by
  have := decodeVarint_encode n [] suffix
  simpa using this

theorem tag_fieldNumber (f w : ℕ) (hw : w < 8) : ((f <<< 3) ||| w) >>> 3 = f := by
  rw [Nat.lor_comm, or_shiftLeft_add w f 3 (by omega), Nat.shiftRight_eq_div_pow]
  omega

theorem tag_wireType (f w : ℕ) (hw : w < 8) : ((f <<< 3) ||| w) &&& 7 = w := by
  rw [Nat.lor_comm, or_shiftLeft_add w f 3 (by omega),
    show (7 : ℕ) = 2 ^ 3 - 1 by norm_num, Nat.and_pow_two_sub_one_eq_mod]
  omega

theorem decodeFieldsLoop_stop (data : List ℕ) (fuel offset : ℕ)
    (fields : List (ℕ × List (ℕ × PVal))) (h : ¬ offset < data.length) :
    decodeFieldsLoop data (fuel + 1) offset fields = some fields := by
  rw [decodeFieldsLoop, if_neg h]

theorem decode_encodeField_varint (f n : ℕ) :
    decodeProtobufFields (encodeField f 0 (encodeVarint n)) =
      some [(f, [(0, PVal.vint n)])] := by
  have hshape : encodeField f 0 (encodeVarint n) =
      encodeVarint ((f <<< 3) ||| 0) ++ (encodeVarint n ++ []) := by
    simp [encodeField]
  have htl := encodeVarint_length_pos ((f <<< 3) ||| 0)
  have hnl := encodeVarint_length_pos n
  have hlen : (encodeField f 0 (encodeVarint n)).length =
      (encodeVarint ((f <<< 3) ||| 0)).length + (encodeVarint n).length := by
    rw [hshape]; simp
  obtain ⟨m, hm⟩ : ∃ m, (encodeField f 0 (encodeVarint n)).length = m + 1 :=
    ⟨(encodeField f 0 (encodeVarint n)).length - 1, by omega⟩
  unfold decodeProtobufFields
  rw [hm, decodeFieldsLoop, if_pos (by omega :
    0 < (encodeField f 0 (encodeVarint n)).length), hshape,
    decodeVarint_encode_zero]
  dsimp only
  rw [tag_fieldNumber f 0 (by norm_num), tag_wireType f 0 (by norm_num),
    if_pos rfl, decodeVarint_encode n (encodeVarint ((f <<< 3) ||| 0)) []]
  dsimp only
  have hstop : ¬ ((encodeVarint ((f <<< 3) ||| 0)).length +
      (encodeVarint n).length <
      ((encodeVarint ((f <<< 3) ||| 0)) ++ (encodeVarint n ++ [])).length) := by
    simp
  obtain ⟨m2, hm2⟩ : ∃ m2, m = m2 + 1 := ⟨m - 1, by omega⟩
  rw [hm2, decodeFieldsLoop_stop _ _ _ _ hstop]
  rfl

theorem decode_encodeField_bytes (f : ℕ) (bs : List ℕ) :
    decodeProtobufFields (encodeField f 2 bs) =
      some [(f, [(2, PVal.bytes bs)])] := by
  have hshape : encodeField f 2 bs =
      encodeVarint ((f <<< 3) ||| 2) ++ (encodeVarint bs.length ++ bs) := by
    simp [encodeField]
  have htl := encodeVarint_length_pos ((f <<< 3) ||| 2)
  have hll := encodeVarint_length_pos bs.length
  have hlen : (encodeField f 2 bs).length =
      (encodeVarint ((f <<< 3) ||| 2)).length +
        ((encodeVarint bs.length).length + bs.length) := by
    rw [hshape]; simp
  obtain ⟨m, hm⟩ : ∃ m, (encodeField f 2 bs).length = m + 1 :=
    ⟨(encodeField f 2 bs).length - 1, by omega⟩
  unfold decodeProtobufFields
  rw [hm, decodeFieldsLoop, if_pos (by omega : 0 < (encodeField f 2 bs).length),
    hshape, decodeVarint_encode_zero]
  dsimp only
  rw [tag_fieldNumber f 2 (by norm_num), tag_wireType f 2 (by norm_num),
    if_neg (by norm_num), if_pos rfl,
    decodeVarint_encode bs.length (encodeVarint ((f <<< 3) ||| 2)) bs]
  dsimp only
  have hdrop : ((encodeVarint ((f <<< 3) ||| 2)) ++
      (encodeVarint bs.length ++ bs)).drop
        ((encodeVarint ((f <<< 3) ||| 2)).length +
          (encodeVarint bs.length).length) = bs := by
    rw [show (encodeVarint ((f <<< 3) ||| 2)) ++ (encodeVarint bs.length ++ bs) =
        ((encodeVarint ((f <<< 3) ||| 2)) ++ encodeVarint bs.length) ++ bs by simp,
      show (encodeVarint ((f <<< 3) ||| 2)).length +
          (encodeVarint bs.length).length =
          ((encodeVarint ((f <<< 3) ||| 2)) ++ encodeVarint bs.length).length by simp]
    exact List.drop_left _ _
  rw [hdrop, List.take_length]
  have hstop : ¬ ((encodeVarint ((f <<< 3) ||| 2)).length +
      (encodeVarint bs.length).length + bs.length <
      ((encodeVarint ((f <<< 3) ||| 2)) ++ (encodeVarint bs.length ++ bs)).length) := by
    simp [Nat.add_assoc]
  obtain ⟨m2, hm2⟩ : ∃ m2, m = m2 + 1 := ⟨m - 1, by omega⟩
  rw [hm2, decodeFieldsLoop_stop _ _ _ _ hstop]
  rfl

theorem decode_encodeField_fixed32 (f : ℕ) (b4 : List ℕ) (h4 : b4.length = 4) :
    decodeProtobufFields (encodeField f 5 b4) =
      some [(f, [(5, PVal.bytes b4)])] := by
  have hshape : encodeField f 5 b4 =
      encodeVarint ((f <<< 3) ||| 5) ++ (b4 ++ []) := by
    simp [encodeField]
  have htl := encodeVarint_length_pos ((f <<< 3) ||| 5)
  have hlen : (encodeField f 5 b4).length =
      (encodeVarint ((f <<< 3) ||| 5)).length + 4 := by
    rw [hshape]; simp [h4]
  obtain ⟨m, hm⟩ : ∃ m, (encodeField f 5 b4).length = m + 1 :=
    ⟨(encodeField f 5 b4).length - 1, by omega⟩
  unfold decodeProtobufFields
  rw [hm, decodeFieldsLoop, if_pos (by omega : 0 < (encodeField f 5 b4).length),
    hshape, decodeVarint_encode_zero]
  dsimp only
  rw [tag_fieldNumber f 5 (by norm_num), tag_wireType f 5 (by norm_num),
    if_neg (by norm_num), if_neg (by norm_num), if_pos rfl]
  have hdrop : ((encodeVarint ((f <<< 3) ||| 5)) ++ (b4 ++ [])).drop
      (encodeVarint ((f <<< 3) ||| 5)).length = b4 := by
    rw [List.drop_left]
    simp
  rw [hdrop, show (4 : ℕ) = b4.length by omega, List.take_length]
  have hstop : ¬ ((encodeVarint ((f <<< 3) ||| 5)).length + b4.length <
      ((encodeVarint ((f <<< 3) ||| 5)) ++ (b4 ++ [])).length) := by
    simp
  obtain ⟨m2, hm2⟩ : ∃ m2, m = m2 + 1 := ⟨m - 1, by omega⟩
  rw [hm2, decodeFieldsLoop_stop _ _ _ _ hstop]
  rfl

/-- C9.  The minimal wire codec round-trips: for every field number `f ≥ 1`,
decoding a single encoded field yields exactly that field — a varint value
under wire type 0, an arbitrary byte string (including nested encoded
messages) under wire type 2, and a 4-byte value under wire type 5. -/
theorem protobuf_roundtrip (f : ℕ) (hf : 1 ≤ f) :
    (∀ n : ℕ, decodeProtobufFields (encodeField f 0 (encodeVarint n)) =
      some [(f, [(0, PVal.vint n)])]) ∧
    (∀ bs : List ℕ, decodeProtobufFields (encodeField f 2 bs) =
      some [(f, [(2, PVal.bytes bs)])]) ∧
    (∀ b4 : List ℕ, b4.length = 4 →
      decodeProtobufFields (encodeField f 5 b4) =
        some [(f, [(5, PVal.bytes b4)])]) :=
  ⟨fun n => decode_encodeField_varint f n,
   fun bs => decode_encodeField_bytes f bs,
   fun b4 h4 => decode_encodeField_fixed32 f b4 h4⟩

/-- Witness for C9 at concrete inputs: field 2, the two-byte varint 300, a
nested depth-2 message as length-delimited payload, and a 4-byte value. -/
theorem protobuf_roundtrip_witness :
    (1 : ℕ) ≤ 2 ∧
    decodeProtobufFields (encodeField 2 0 (encodeVarint 300)) =
      some [(2, [(0, PVal.vint 300)])] ∧
    decodeProtobufFields (encodeField 2 2 (encodeField 1 0 (encodeVarint 7))) =
      some [(2, [(2, PVal.bytes (encodeField 1 0 (encodeVarint 7)))])] ∧
    ([1, 2, 3, 4] : List ℕ).length = 4 ∧
    decodeProtobufFields (encodeField 2 5 [1, 2, 3, 4]) =
      some [(2, [(5, PVal.bytes [1, 2, 3, 4])])] :=
  ⟨by norm_num,
   (protobuf_roundtrip 2 (by norm_num)).1 300,
   (protobuf_roundtrip 2 (by norm_num)).2.1 (encodeField 1 0 (encodeVarint 7)),
   by simp,
   (protobuf_roundtrip 2 (by norm_num)).2.2 [1, 2, 3, 4] (by simp)⟩

-- ---------------------------------------------------------------------------
-- fmdn_fetch.py : _decrypt_location_report (C5)
-- ---------------------------------------------------------------------------

/-- A decrypted FMDN location dict (`lat`, `lon`, `altitude`, `timestamp`,
plus the `accuracy` and `is_own_report` keys added by
`_decrypt_location_report`). -/
structure FmdnLocation where
  lat : ℚ
  lon : ℚ
  altitude : ℕ
  timestamp : ℤ
  accuracy : ℚ
  is_own : Bool
  deriving DecidableEq, Repr

/-- `fields.get(k, [])` on the decoded-fields dict. -/
def fieldsGet (fs : List (ℕ × List (ℕ × PVal))) (k : ℕ) : List (ℕ × PVal) :=
  match fs.find? (fun p => p.1 = k) with
  | some p => p.2
  | none => []

/-- `for _, val in entries: if isinstance(val, bytes): acc = val` —
last byte-string value wins. -/
def lastBytesD (entries : List (ℕ × PVal)) (init : List ℕ) : List ℕ :=
  entries.foldl (fun acc wv =>
    match wv.2 with
    | PVal.bytes b => b
    | PVal.vint _ => acc) init

/-- `for _, val in entries: if isinstance(val, int): acc = val` —
last integer value wins. -/
def lastIntD (entries : List (ℕ × PVal)) (init : ℤ) : ℤ :=
  entries.foldl (fun acc wv =>
    match wv.2 with
    | PVal.vint n => (n : ℤ)
    | PVal.bytes _ => acc) init

/-- `for _, val in entries: if isinstance(val, bytes) and len(val) == 4:
acc = struct.unpack("<f", val)[0]` — `f32` abstracts the little-endian
float32 decoding. -/
def lastF32D (f32 : List ℕ → ℚ) (entries : List (ℕ × PVal)) (init : ℚ) : ℚ :=
  entries.foldl (fun acc wv =>
    match wv.2 with
    | PVal.bytes b => if b.length = 4 then f32 b else acc
    | PVal.vint _ => acc) init

/-- The inner `for _, enc_bytes in geo_fields.get(1, [])` loop of
`_decrypt_location_report`.  Result: outer `none` = a propagating exception,
`some none` = no report decrypted (fall through), `some (some r)` = an early
`return result`.  `decOwn`/`decCrowd` abstract `_decrypt_own_report` and
`_decrypt_crowdsourced_report`. -/
def encLoop (decOwn : List ℕ → ℤ → Option (Option FmdnLocation))
    (decCrowd : List ℕ → List ℕ → ℤ → Option (Option FmdnLocation))
    (f32 : List ℕ → ℚ) (geoFields : List (ℕ × List (ℕ × PVal)))
    (timestamp : ℤ) : List (ℕ × PVal) → Option (Option FmdnLocation)
  | [] => some none
  | (_, PVal.vint _) :: rest =>
    encLoop decOwn decCrowd f32 geoFields timestamp rest
  | (_, PVal.bytes enc_bytes) :: rest =>
    match decodeProtobufFields enc_bytes with
    | none => none
    | some encFields =>
      let sender_pubkey_x := lastBytesD (fieldsGet encFields 1) []
      let encrypted_location := lastBytesD (fieldsGet encFields 2) []
      let is_own := lastIntD (fieldsGet encFields 3) 0 ≠ 0
      if encrypted_location = [] then
        encLoop decOwn decCrowd f32 geoFields timestamp rest
      else
        let device_time_offset := lastIntD (fieldsGet geoFields 2) 0
        let accuracy := lastF32D f32 (fieldsGet geoFields 3) 0
        let report_ts := timestamp + device_time_offset
        match (if is_own ∨ sender_pubkey_x = [] then
            decOwn encrypted_location report_ts
          else decCrowd encrypted_location sender_pubkey_x report_ts) with
        | none => none
        | some none => encLoop decOwn decCrowd f32 geoFields timestamp rest
        | some (some r) =>
          some (some { r with accuracy := accuracy, is_own := is_own })

/-- The outer `for _, geo_bytes in fields.get(10, [])` loop. -/
def geoLoop (decOwn : List ℕ → ℤ → Option (Option FmdnLocation))
    (decCrowd : List ℕ → List ℕ → ℤ → Option (Option FmdnLocation))
    (f32 : List ℕ → ℚ) (timestamp : ℤ) :
    List (ℕ × PVal) → Option (Option FmdnLocation)
  | [] => some none
  | (_, PVal.vint _) :: rest => geoLoop decOwn decCrowd f32 timestamp rest
  | (_, PVal.bytes geo_bytes) :: rest =>
    match decodeProtobufFields geo_bytes with
    | none => none
    | some geoFields =>
      match encLoop decOwn decCrowd f32 geoFields timestamp
        (fieldsGet geoFields 1) with
      | none => none
      | some (some r) => some (some r)
      | some none => geoLoop decOwn decCrowd f32 timestamp rest

/-- `_decrypt_location_report(eik, location_report_bytes, timestamp)`, with
the two per-variant decryptors abstracted (the EIK only flows into them).
Outer `none` models an uncaught exception escaping the function; `some none`
models the Python `return None`. -/
def decryptLocationReport (decOwn : List ℕ → ℤ → Option (Option FmdnLocation))
    (decCrowd : List ℕ → List ℕ → ℤ → Option (Option FmdnLocation))
    (f32 : List ℕ → ℚ) (location_report_bytes : List ℕ) (timestamp : ℤ) :
    Option (Option FmdnLocation) :=
  match decodeProtobufFields location_report_bytes with
  | none => none
  | some fields =>
    geoLoop decOwn decCrowd f32 timestamp (fieldsGet fields 10)

theorem decodeVarint_cont_truncated :
    decodeVarint [0x80] 0 = none := by
  unfold decodeVarint
  rw [decodeVarintAux, dif_pos (by simp)]
  rw [if_neg (by decide)]
  rw [decodeVarintAux, dif_neg (by simp)]

/-- C5 (code evaluation at the failing input).  The Google-side decrypt path
does NOT return `None` for every malformed input: on the one-byte report
`b"\x80"` (a truncated varint), `_decode_protobuf_fields` raises
`ValueError("Varint extends beyond data")` from the very first tag read, and
`_decrypt_location_report` propagates it instead of skipping the report, so a
single corrupt report aborts the whole batch in `fetch_fmdn_reports`. -/
theorem decryptLocationReport_truncated_varint_raises
    (decOwn : List ℕ → ℤ → Option (Option FmdnLocation))
    (decCrowd : List ℕ → List ℕ → ℤ → Option (Option FmdnLocation))
    (f32 : List ℕ → ℚ) (timestamp : ℤ) :
    decryptLocationReport decOwn decCrowd f32 [0x80] timestamp = none := by
  have hdec : decodeProtobufFields [0x80] = none := by
    unfold decodeProtobufFields
    rw [decodeFieldsLoop, if_pos (by simp), decodeVarint_cont_truncated]
  unfold decryptLocationReport
  rw [hdec]

-- ---------------------------------------------------------------------------
-- findmy.py cmd_fetch / gpx.py reports_to_gpx : the export pipeline (C7)
-- ---------------------------------------------------------------------------

/-- The decrypt-and-collect loop of `cmd_fetch`: every report whose
`decrypt_report` returns a dict is appended to `results` (`if loc:` is always
true for the non-empty dict) and then serialised; no field of the location is
inspected.  An uncaught exception (outer `none`) is modelled as producing no
entry. -/
def cmdFetchResults (sha256 : List ℕ → List ℕ)
    (ecdh : ℕ → List ℕ → Option (List ℕ))
    (aesGcm : List ℕ → List ℕ → List ℕ → List ℕ → Option (List ℕ))
    (private_key_int : ℕ) (payloads : List (List ℕ)) : List AppleReport :=
  payloads.filterMap
    (fun p => (decrypt_report sha256 ecdh aesGcm p private_key_int).join)

/-- The `<trkpt lat=... lon=...>` elements emitted by `reports_to_gpx`: one
per report, in order, with no bounds check. -/
def reportsToGpxTrkpts (reports : List AppleReport) : List (ℚ × ℚ) :=
  reports.map (fun r => (r.lat, r.lon))

/-- C7 as claimed: every point reaching the JSON/GPX output satisfies
`-90 ≤ lat ≤ 90` and `-180 ≤ lon ≤ 180` (out-of-range points are discarded
before export). -/
def appleExportWithinBounds : Prop :=
  ∀ (sha256 : List ℕ → List ℕ) (ecdh : ℕ → List ℕ → Option (List ℕ))
    (aesGcm : List ℕ → List ℕ → List ℕ → List ℕ → Option (List ℕ))
    (private_key_int : ℕ) (payloads : List (List ℕ)),
    ∀ p ∈ reportsToGpxTrkpts
      (cmdFetchResults sha256 ecdh aesGcm private_key_int payloads),
      -90 ≤ p.1 ∧ p.1 ≤ 90 ∧ -180 ≤ p.2 ∧ p.2 ≤ 180

/-- C7 counterexample.  No bounds check exists anywhere in the pipeline: a
report whose decrypted plaintext encodes `lat_e7 = 2000000000` is exported as
latitude 200.0 in both the JSON results and the GPX track. -/
theorem applePipelineEval : reportsToGpxTrkpts
    (cmdFetchResults (fun _ => List.replicate 32 0) (fun _ _ => some [])
      (fun _ _ _ _ => some [0x77, 0x35, 0x94, 0x00, 0, 0, 0, 0, 5, 0]) 0
      [List.replicate 88 0]) = [((200 : ℚ), (0 : ℚ))] := by
  norm_num [reportsToGpxTrkpts, cmdFetchResults, decrypt_report, Option.join,
    sint32, beVal]
  simp

theorem apple_export_no_bounds_check : ¬ appleExportWithinBounds := by
  intro h
  have hmem : ((200 : ℚ), (0 : ℚ)) ∈ reportsToGpxTrkpts
      (cmdFetchResults (fun _ => List.replicate 32 0) (fun _ _ => some [])
        (fun _ _ _ _ => some [0x77, 0x35, 0x94, 0x00, 0, 0, 0, 0, 5, 0]) 0
        [List.replicate 88 0]) := by
    rw [applePipelineEval]
    simp
  have hb := h (fun _ => List.replicate 32 0) (fun _ _ => some [])
    (fun _ _ _ _ => some [0x77, 0x35, 0x94, 0x00, 0, 0, 0, 0, 5, 0]) 0
    [List.replicate 88 0] ((200 : ℚ), (0 : ℚ)) hmem
  have : (200 : ℚ) ≤ 90 := hb.2.1
  norm_num at this

theorem beVal_foldl_lt (bs : List ℕ) :
    ∀ a : ℕ, (∀ b ∈ bs, b < 256) →
      bs.foldl (fun x y => 256 * x + y) a < (a + 1) * 256 ^ bs.length := by
  induction bs with
  | nil => intro a _; simp
  | cons b t ih =>
    intro a hb
    have hbt : ∀ x ∈ t, x < 256 := fun x hx => hb x (List.mem_cons_of_mem b hx)
    have hb0 : b < 256 := hb b (List.mem_cons_self b t)
    have h1 := ih (256 * a + b) hbt
    calc (b :: t).foldl (fun x y => 256 * x + y) a
        = t.foldl (fun x y => 256 * x + y) (256 * a + b) := by rfl
      _ < (256 * a + b + 1) * 256 ^ t.length := h1
      _ ≤ (256 * (a + 1)) * 256 ^ t.length := by
          have : 256 * a + b + 1 ≤ 256 * (a + 1) := by omega
          exact Nat.mul_le_mul_right _ this
      _ = (a + 1) * 256 ^ (b :: t).length := by
          simp [List.length_cons, pow_succ]
          ring

theorem beVal_lt_of_bytes (bs : List ℕ) (hb : ∀ b ∈ bs, b < 256) :
    beVal bs < 256 ^ bs.length :=
  by simpa [beVal] using beVal_foldl_lt bs 0 hb

theorem sint32_range (bs : List ℕ) (hlen : bs.length ≤ 4)
    (hb : ∀ b ∈ bs, b < 256) :
    -(2 ^ 31) ≤ sint32 bs ∧ sint32 bs ≤ 2 ^ 31 - 1 := by
  have h1 : beVal bs < 256 ^ bs.length := beVal_lt_of_bytes bs hb
  have h2 : (256 : ℕ) ^ bs.length ≤ 256 ^ 4 :=
    Nat.pow_le_pow_right (by norm_num) hlen
  have h3 : beVal bs < 4294967296 := by
    have h4 : (256 : ℕ) ^ 4 = 4294967296 := by norm_num
    omega
  unfold sint32
  rw [show ((2 : ℤ) ^ 31) = 2147483648 by norm_num,
    show ((2 : ℤ) ^ 32) = 4294967296 by norm_num,
    show ((2 : ℕ) ^ 31) = 2147483648 by norm_num]
  split_ifs with h4 <;> refine ⟨by omega, by omega⟩

/-- C7 amended.  No discarding happens: every successfully decrypted report
is exported unchanged, and the only latitude/longitude guarantee is the one
inherited from the signed-32-bit `1e7`-scaled decoding, namely
`-2^31/10^7 ≤ lat, lon ≤ (2^31-1)/10^7` (≈ ±214.75 degrees), provided the
AEAD abstraction emits genuine byte strings. -/
theorem apple_export_decoding_range (sha256 : List ℕ → List ℕ)
    (ecdh : ℕ → List ℕ → Option (List ℕ))
    (aesGcm : List ℕ → List ℕ → List ℕ → List ℕ → Option (List ℕ))
    (private_key_int : ℕ) (payloads : List (List ℕ))
    (haes : ∀ k iv c t pt, aesGcm k iv c t = some pt → ∀ b ∈ pt, b < 256) :
    ∀ p ∈ reportsToGpxTrkpts
      (cmdFetchResults sha256 ecdh aesGcm private_key_int payloads),
      -(2147483648 : ℚ) / 10000000 ≤ p.1 ∧ p.1 ≤ 2147483647 / 10000000 ∧
      -(2147483648 : ℚ) / 10000000 ≤ p.2 ∧ p.2 ≤ 2147483647 / 10000000 := by
  intro p hp
  simp only [reportsToGpxTrkpts, List.mem_map] at hp
  obtain ⟨r, hr, rfl⟩ := hp
  simp only [cmdFetchResults, List.mem_filterMap] at hr
  obtain ⟨payload, _, hdec⟩ := hr
  unfold decrypt_report at hdec
  generalize (if 88 < payload.length
      then List.take 4 payload ++ List.drop 5 payload else payload) = data at hdec
  simp only [] at hdec
  split at hdec
  · simp [Option.join] at hdec
  · split at hdec
    · simp [Option.join] at hdec
    · rename_i shared _ pt haesr
      split at hdec
      · rename_i hlen
        simp only [Option.join, Option.some_bind, id_eq, Option.some.injEq] at hdec
        have hbytes : ∀ b ∈ pt, b < 256 := haes _ _ _ _ pt haesr
        have hlat := sint32_range (pt.take 4) (by simp)
          (fun b hb => hbytes b (List.mem_of_mem_take hb))
        have hlon := sint32_range ((pt.drop 4).take 4) (by simp)
          (fun b hb => hbytes b (List.mem_of_mem_drop (List.mem_of_mem_take hb)))
        have hlat1 : (-2147483648 : ℚ) ≤ ((sint32 (pt.take 4) : ℤ) : ℚ) := by
          exact_mod_cast hlat.1
        have hlat2 : ((sint32 (pt.take 4) : ℤ) : ℚ) ≤ 2147483647 := by
          exact_mod_cast hlat.2
        have hlon1 : (-2147483648 : ℚ) ≤ ((sint32 ((pt.drop 4).take 4) : ℤ) : ℚ) := by
          exact_mod_cast hlon.1
        have hlon2 : ((sint32 ((pt.drop 4).take 4) : ℤ) : ℚ) ≤ 2147483647 := by
          exact_mod_cast hlon.2
        rw [← hdec]
        dsimp only
        refine ⟨by linarith, by linarith, by linarith, by linarith⟩
      · simp [Option.join] at hdec

/-- Witness for the amended C7 theorem on the concrete pipeline of the
counterexample: the exported point `(200, 0)` does lie in the decoding
range. -/
theorem apple_export_decoding_range_witness :
    (∀ k iv c t pt, ((fun _ _ _ _ =>
        some [0x77, 0x35, 0x94, 0x00, 0, 0, 0, 0, 5, 0]) :
        List ℕ → List ℕ → List ℕ → List ℕ → Option (List ℕ)) k iv c t =
        some pt → ∀ b ∈ pt, b < 256) ∧
    ((200 : ℚ), (0 : ℚ)) ∈ reportsToGpxTrkpts
      (cmdFetchResults (fun _ => List.replicate 32 0) (fun _ _ => some [])
        (fun _ _ _ _ => some [0x77, 0x35, 0x94, 0x00, 0, 0, 0, 0, 5, 0]) 0
        [List.replicate 88 0]) ∧
    (-(2147483648 : ℚ) / 10000000 ≤ ((200 : ℚ), (0 : ℚ)).1 ∧
      ((200 : ℚ), (0 : ℚ)).1 ≤ 2147483647 / 10000000 ∧
      -(2147483648 : ℚ) / 10000000 ≤ ((200 : ℚ), (0 : ℚ)).2 ∧
      ((200 : ℚ), (0 : ℚ)).2 ≤ 2147483647 / 10000000) := by
  have haes : ∀ k iv c t pt, ((fun _ _ _ _ =>
      some [0x77, 0x35, 0x94, 0x00, 0, 0, 0, 0, 5, 0]) :
      List ℕ → List ℕ → List ℕ → List ℕ → Option (List ℕ)) k iv c t =
      some pt → ∀ b ∈ pt, b < 256 := by
    intro k iv c t pt h
    have hpt : pt = [0x77, 0x35, 0x94, 0x00, 0, 0, 0, 0, 5, 0] :=
      (Option.some.inj h).symm
    rw [hpt]
    decide
  have hmem : ((200 : ℚ), (0 : ℚ)) ∈ reportsToGpxTrkpts
      (cmdFetchResults (fun _ => List.replicate 32 0) (fun _ _ => some [])
        (fun _ _ _ _ => some [0x77, 0x35, 0x94, 0x00, 0, 0, 0, 0, 5, 0]) 0
        [List.replicate 88 0]) := by
    rw [applePipelineEval]
    simp
  exact ⟨haes, hmem,
    apple_export_decoding_range (fun _ => List.replicate 32 0)
      (fun _ _ => some []) _ 0 [List.replicate 88 0] haes _ hmem⟩

-- ---------------------------------------------------------------------------
-- gpx.py : haversine distance and dedupe_reports (C8)
-- ---------------------------------------------------------------------------

/-- A location report dict as consumed by `dedupe_reports`: `lat`/`lon`
(Python floats, modelled as reals), `timestamp`, and the optional `counter`
and `confidence` keys. -/
structure Report where
  lat : ℝ
  lon : ℝ
  timestamp : ℤ
  counter : Option ℤ
  confidence : Option ℤ

/-- `r.get("counter", r["timestamp"] // 900)` (Lean's `/` on `ℤ` agrees with
Python's floor `//` for the positive divisor 900). -/
def repKey (r : Report) : ℤ := r.counter.getD (r.timestamp / 900)

/-- `x.get("confidence", 0)`. -/
def conf (r : Report) : ℤ := r.confidence.getD 0

/-- `math.radians`. -/
noncomputable def radians (x : ℝ) : ℝ := x * Real.pi / 180

/-- `math.atan2` on reals (no signed zeros; both call sites pass nonnegative
arguments, where this agrees with the C convention). -/
noncomputable def atan2 (y x : ℝ) : ℝ :=
  if 0 < x then Real.arctan (y / x)
  else if x < 0 then
    (if 0 ≤ y then Real.arctan (y / x) + Real.pi
     else Real.arctan (y / x) - Real.pi)
  else (if 0 < y then Real.pi / 2 else if y < 0 then -(Real.pi / 2) else 0)

/-- `haversine_m(lat1, lon1, lat2, lon2)`: haversine distance in metres,
with Python float arithmetic modelled as exact real arithmetic. -/
noncomputable def haversine_m (lat1 lon1 lat2 lon2 : ℝ) : ℝ :=
  let R : ℝ := 6371000
  let dlat := radians (lat2 - lat1)
  let dlon := radians (lon2 - lon1)
  let a := Real.sin (dlat / 2) ^ 2 +
    Real.cos (radians lat1) * Real.cos (radians lat2) * Real.sin (dlon / 2) ^ 2
  R * 2 * atan2 (Real.sqrt a) (Real.sqrt (1 - a))

/-- Haversine distance between two reports. -/
noncomputable def distR (p q : Report) : ℝ :=
  haversine_m p.lat p.lon q.lat q.lon

theorem haversine_comm (lat1 lon1 lat2 lon2 : ℝ) :
    haversine_m lat1 lon1 lat2 lon2 = haversine_m lat2 lon2 lat1 lon1 := by
  have hsin : ∀ x y : ℝ,
      Real.sin (radians (x - y) / 2) ^ 2 = Real.sin (radians (y - x) / 2) ^ 2 := by
    intro x y
    have h1 : radians (x - y) = -(radians (y - x)) := by unfold radians; ring
    rw [h1, neg_div, Real.sin_neg]
    ring
  unfold haversine_m
  simp only []
  rw [hsin lat2 lat1, hsin lon2 lon1, mul_comm (Real.cos (radians lat1))]

theorem distR_comm (p q : Report) : distR p q = distR q p :=
  haversine_comm p.lat p.lon q.lat q.lon

/-- The key-comparison relation used by Python's stable `sorted(key=...)`. -/
def keyRel {α : Type} (key : α → ℤ) (a b : α) : Prop := key a ≤ key b

instance {α : Type} (key : α → ℤ) : DecidableRel (keyRel key) :=
  fun a b => inferInstanceAs (Decidable (key a ≤ key b))

instance {α : Type} (key : α → ℤ) : IsTotal α (keyRel key) :=
  ⟨fun a b => Int.le_total (key a) (key b)⟩

instance {α : Type} (key : α → ℤ) : IsTrans α (keyRel key) :=
  ⟨fun _ _ _ hab hbc => le_trans hab hbc⟩

/-- Python's stable `sorted(l, key=...)` (insertion sort is stable, matching
CPython's stable sort on this key order). -/
def sortByKey {α : Type} (key : α → ℤ) (l : List α) : List α :=
  l.insertionSort (keyRel key)

/-- `sorted(result, key=lambda r: r["timestamp"])`. -/
def sortTs (l : List Report) : List Report :=
  sortByKey (fun r => r.timestamp) l

/-- `sorted(group, key=lambda x: -x.get("confidence", 0))`. -/
def sortConf (l : List Report) : List Report :=
  sortByKey (fun r => -conf r) l

/-- `sorted(by_counter.items())` — the ascending iteration over counter
keys. -/
def sortInts (l : List ℤ) : List ℤ := sortByKey (fun n => n) l

section KeySort

variable {α : Type} (key : α → ℤ)

theorem keyRel_iff (a b : α) : keyRel key a b ↔ key a ≤ key b := Iff.rfl

theorem orderedInsert_swap_aux (a b : α) (hlt : key a < key b) :
    ∀ L : List α,
      List.orderedInsert (keyRel key) b (List.orderedInsert (keyRel key) a L) =
        List.orderedInsert (keyRel key) a (List.orderedInsert (keyRel key) b L)
  | [] => by
    have h1 : keyRel key a b := by simp only [keyRel_iff]; omega
    have h2 : ¬ keyRel key b a := by simp only [keyRel_iff]; omega
    simp [List.orderedInsert, h1, h2]
  | c :: t => by
    have h1 : keyRel key a b := by simp only [keyRel_iff]; omega
    have h2 : ¬ keyRel key b a := by simp only [keyRel_iff]; omega
    by_cases hac : keyRel key a c <;> by_cases hbc : keyRel key b c
    · simp [List.orderedInsert, hac, hbc, h1, h2]
    · simp [List.orderedInsert, hac, hbc, h1, h2]
    · exfalso
      simp only [keyRel_iff] at *
      omega
    · simp [List.orderedInsert, hac, hbc, h1, h2,
        orderedInsert_swap_aux a b hlt t]

theorem orderedInsert_swap (a b : α) (hab : key a ≠ key b) (L : List α) :
    List.orderedInsert (keyRel key) a (List.orderedInsert (keyRel key) b L) =
      List.orderedInsert (keyRel key) b (List.orderedInsert (keyRel key) a L) := by
  rcases lt_or_gt_of_ne hab with h | h
  · exact (orderedInsert_swap_aux key a b h L).symm
  · exact orderedInsert_swap_aux key b a h L

theorem sortByKey_middle (a : α) (u v : List α)
    (hu : ∀ x ∈ u, key x ≠ key a) :
    sortByKey key (u ++ a :: v) = sortByKey key (a :: (u ++ v)) := by
  induction u with
  | nil => rfl
  | cons b u2 ih =>
    have hb : key b ≠ key a := hu b (List.mem_cons_self b u2)
    calc sortByKey key ((b :: u2) ++ a :: v)
        = List.orderedInsert (keyRel key) b (sortByKey key (u2 ++ a :: v)) := rfl
      _ = List.orderedInsert (keyRel key) b (sortByKey key (a :: (u2 ++ v))) := by
          rw [ih (fun x hx => hu x (List.mem_cons_of_mem b hx))]
      _ = List.orderedInsert (keyRel key) b
            (List.orderedInsert (keyRel key) a (sortByKey key (u2 ++ v))) := rfl
      _ = List.orderedInsert (keyRel key) a
            (List.orderedInsert (keyRel key) b (sortByKey key (u2 ++ v))) :=
          orderedInsert_swap key b a hb (sortByKey key (u2 ++ v))
      _ = sortByKey key (a :: (b :: u2 ++ v)) := rfl

theorem filter_key_eq_cons {t : ℤ} {a : α} :
    ∀ {l w : List α}, l.filter (fun x => key x == t) = a :: w →
      ∃ u v, l = u ++ a :: v ∧ (∀ x ∈ u, key x ≠ t) ∧
        v.filter (fun x => key x == t) = w ∧ key a = t := by
  intro l
  induction l with
  | nil => intro w h; simp at h
  | cons b l2 ih =>
    intro w h
    by_cases hb : key b = t
    · rw [List.filter_cons, if_pos (by simp [hb])] at h
      obtain ⟨rfl, hw⟩ : b = a ∧ l2.filter (fun x => key x == t) = w := by
        constructor
        · exact (List.cons.inj h).1
        · exact (List.cons.inj h).2
      exact ⟨[], l2, by simp, by simp, hw, hb⟩
    · rw [List.filter_cons, if_neg (by simp [hb])] at h
      obtain ⟨u, v, hl, hu, hv, ha⟩ := ih h
      exact ⟨b :: u, v, by rw [hl]; rfl,
        fun x hx => by
          rcases List.mem_cons.mp hx with rfl | hx2
          · exact hb
          · exact hu x hx2,
        hv, ha⟩

theorem sortByKey_eq_of_filters :
    ∀ {l l' : List α},
      (∀ t : ℤ, l.filter (fun x => key x == t) = l'.filter (fun x => key x == t)) →
      sortByKey key l = sortByKey key l' := by
  intro l
  induction l with
  | nil =>
    intro l' h
    cases l' with
    | nil => rfl
    | cons b t2 =>
      have hb := h (key b)
      rw [List.filter_cons, if_pos (by simp)] at hb
      simp at hb
  | cons a l2 ih =>
    intro l' h
    have ha := h (key a)
    rw [List.filter_cons, if_pos (by simp)] at ha
    obtain ⟨u, v, hl', hu, hv, _⟩ := filter_key_eq_cons key ha.symm
    have hu' : ∀ x ∈ u, key x ≠ key a := hu
    rw [hl', sortByKey_middle key a u v hu']
    show List.orderedInsert (keyRel key) a (sortByKey key l2) =
      List.orderedInsert (keyRel key) a (sortByKey key (u ++ v))
    rw [ih (fun t => ?_)]
    by_cases hat : key a = t
    · have hfu : List.filter (fun x => key x == t) u = [] :=
        List.filter_eq_nil_iff.mpr (fun x hx => by
          simp only [beq_iff_eq]
          rw [← hat]
          exact hu x hx)
      have h1 := h t
      rw [List.filter_cons, if_pos (by simp [hat]), hl', List.filter_append,
        hfu, List.nil_append, List.filter_cons, if_pos (by simp [hat])] at h1
      rw [List.filter_append, hfu, List.nil_append]
      exact (List.cons.inj h1).2
    · have h1 := h t
      rw [List.filter_cons, if_neg (by simp [hat]), hl',
        List.filter_append, List.filter_cons, if_neg (by simp [hat])] at h1
      rw [List.filter_append]
      exact h1

theorem filter_orderedInsert (p : α → Bool) (a : α) :
    ∀ L : List α, L.Sorted (keyRel key) →
      (List.orderedInsert (keyRel key) a L).filter p =
        if p a then List.orderedInsert (keyRel key) a (L.filter p)
        else L.filter p
  | [], _ => by
    simp [List.orderedInsert, List.filter_cons]
  | b :: t, hL => by
    by_cases hab : keyRel key a b
    · rw [List.orderedInsert, if_pos hab, List.filter_cons, List.filter_cons]
      split_ifs with hpa hpb hpb
      · rw [List.orderedInsert, if_pos hab]
      · cases hft : t.filter p with
        | nil => simp [List.orderedInsert]
        | cons c t2 =>
          have hc : c ∈ t.filter p := by rw [hft]; exact List.mem_cons_self c t2
          have hct : c ∈ t := (List.mem_filter.mp hc).1
          have hbc : keyRel key b c := List.rel_of_sorted_cons hL c hct
          have hac : keyRel key a c :=
            (keyRel_iff key a c).mpr (le_trans ((keyRel_iff key a b).mp hab)
              ((keyRel_iff key b c).mp hbc))
          rw [List.orderedInsert, if_pos hac]
      · rfl
      · rfl
    · rw [List.orderedInsert, if_neg hab, List.filter_cons, List.filter_cons,
        filter_orderedInsert p a t hL.of_cons]
      split_ifs with hpb hpa hpa
      · rw [List.orderedInsert, if_neg hab]
      · rfl
      · rfl
      · rfl

theorem filter_sortByKey (p : α → Bool) (l : List α) :
    (sortByKey key l).filter p = sortByKey key (l.filter p) := by
  induction l with
  | nil => rfl
  | cons a t ih =>
    show (List.orderedInsert (keyRel key) a (sortByKey key t)).filter p =
      sortByKey key ((a :: t).filter p)
    rw [filter_orderedInsert key p a (sortByKey key t)
      (List.sorted_insertionSort (keyRel key) t), List.filter_cons]
    split_ifs with hpa
    · rw [ih]; rfl
    · rw [ih]

theorem sortByKey_const {t : ℤ} :
    ∀ {l : List α}, (∀ x ∈ l, key x = t) → sortByKey key l = l := by
  intro l
  induction l with
  | nil => intro _; rfl
  | cons a l2 ih =>
    intro h
    show List.orderedInsert (keyRel key) a (sortByKey key l2) = a :: l2
    rw [ih (fun x hx => h x (List.mem_cons_of_mem a hx))]
    cases l2 with
    | nil => rfl
    | cons b t2 =>
      rw [List.orderedInsert, if_pos]
      rw [keyRel_iff, h a (List.mem_cons_self a _),
        h b (List.mem_cons_of_mem a (List.mem_cons_self b t2))]

theorem filter_key_sortByKey (t : ℤ) (l : List α) :
    (sortByKey key l).filter (fun x => key x == t) =
      l.filter (fun x => key x == t) := by
  rw [filter_sortByKey]
  exact sortByKey_const key (fun x hx => by
    have := (List.mem_filter.mp hx).2
    simpa using this)

end KeySort

-- ---------------------------------------------------------------------------
-- dedupe_reports: clustering machinery
-- ---------------------------------------------------------------------------

open scoped Classical

/-- One step of the inner clustering loop of `dedupe_reports`: try to merge
report `r` into the first cluster whose reference point (`cluster[0]`) is
closer than `radius`; if none matches, append the new cluster `[r]`.  A
cluster is modelled as its reference point paired with the list of members
appended after it. -/
noncomputable def clusterAdd (radius : ℝ) (r : Report) :
    List (Report × List Report) → List (Report × List Report)
  | [] => [(r, [])]
  | c :: cs =>
    if distR c.1 r < radius then (c.1, c.2 ++ [r]) :: cs
    else c :: clusterAdd radius r cs

/-- The `for r in sorted(group, ...)` loop of `dedupe_reports`, building the
cluster list left to right. -/
noncomputable def scanClusters (radius : ℝ) (l : List Report) :
    List (Report × List Report) :=
  l.foldl (fun a r => clusterAdd radius r a) []

/-- Python's `max(iterable, key=...)`: keep the current best, replacing it
only when a later item's key is strictly greater (so the first maximum
wins). -/
def pyMaxAux (best : Report) : List Report → Report
  | [] => best
  | x :: xs => if conf best < conf x then pyMaxAux x xs else pyMaxAux best xs

/-- `max(cluster, key=lambda r: r.get("confidence", 0))` over a nonempty
cluster. -/
def pyMax (c : Report × List Report) : Report := pyMaxAux c.1 c.2

/-- The per-group body of `dedupe_reports`: sort by descending confidence,
greedily cluster, then keep each cluster's highest-confidence member. -/
noncomputable def groupOut (radius : ℝ) (group : List Report) : List Report :=
  (scanClusters radius (sortConf group)).map pyMax

/-- `by_counter.setdefault(key, [])` key bookkeeping: Python dicts keep keys
in first-insertion order. -/
def insertKey (ks : List ℤ) (k : ℤ) : List ℤ :=
  if k ∈ ks then ks else ks ++ [k]

/-- The keys of `by_counter`, in insertion order. -/
def dictKeys (reports : List Report) : List ℤ :=
  reports.foldl (fun a r => insertKey a (repKey r)) []

/-- The value `by_counter[k]`: the reports with key `k`, in input order. -/
def groupOf (reports : List Report) (k : ℤ) : List Report :=
  reports.filter (fun r => repKey r == k)

/-- `dedupe_reports(reports, radius_m)`: group by counter (or 15-minute
timestamp bucket), iterate the groups in ascending key order, cluster each
group greedily after sorting by descending confidence, keep each cluster's
highest-confidence point, and sort the result by timestamp. -/
noncomputable def dedupe_reports (reports : List Report) (radius : ℝ) :
    List Report :=
  sortTs (((sortInts (dictKeys reports)).map
    (fun k => groupOut radius (groupOf reports k))).flatten)

theorem clusterAdd_ne_nil (radius : ℝ) (r : Report) :
    ∀ cs, clusterAdd radius r cs ≠ []
  | [] => by simp [clusterAdd]
  | c :: cs => by
    rw [clusterAdd]
    split_ifs <;> simp

theorem clusterAdd_reps (radius : ℝ) (r : Report) :
    ∀ cs : List (Report × List Report),
      (clusterAdd radius r cs).map Prod.fst = cs.map Prod.fst ∨
      ((clusterAdd radius r cs).map Prod.fst = cs.map Prod.fst ++ [r] ∧
        ∀ c ∈ cs, ¬ distR c.1 r < radius)
  | [] => Or.inr ⟨by simp [clusterAdd], by simp⟩
  | c :: cs => by
    rw [clusterAdd]
    split_ifs with h
    · exact Or.inl (by simp)
    · rcases clusterAdd_reps radius r cs with h2 | ⟨h2, h3⟩
      · exact Or.inl (by simp [h2])
      · refine Or.inr ⟨by simp [h2], ?_⟩
        intro c' hc'
        rcases List.mem_cons.mp hc' with rfl | hc2
        · exact h
        · exact h3 c' hc2

theorem clusterAdd_members (radius : ℝ) (r : Report) :
    ∀ cs : List (Report × List Report),
      (∀ c ∈ cs, conf r ≤ conf c.1) →
      (∀ c ∈ cs, ∀ x ∈ c.2, conf x ≤ conf c.1) →
      ∀ c ∈ clusterAdd radius r cs, ∀ x ∈ c.2, conf x ≤ conf c.1
  | [], _, _ => by simp [clusterAdd]
  | c :: cs, hr, hm => by
    rw [clusterAdd]
    split_ifs with h
    · intro c' hc' x hx
      rcases List.mem_cons.mp hc' with rfl | hc2
      · rcases List.mem_append.mp hx with hx1 | hx2
        · exact hm c (List.mem_cons_self c cs) x hx1
        · rw [List.mem_singleton.mp hx2]
          exact hr c (List.mem_cons_self c cs)
      · exact hm c' (List.mem_cons_of_mem c hc2) x hx
    · intro c' hc' x hx
      rcases List.mem_cons.mp hc' with rfl | hc2
      · exact hm c' (List.mem_cons_self c' cs) x hx
      · exact clusterAdd_members radius r cs
          (fun c0 h0 => hr c0 (List.mem_cons_of_mem c h0))
          (fun c0 h0 => hm c0 (List.mem_cons_of_mem c h0)) c' hc2 x hx

theorem clusterAdd_mem (radius : ℝ) (r : Report) :
    ∀ cs : List (Report × List Report), ∀ c ∈ clusterAdd radius r cs, ∀ x,
      x = c.1 ∨ x ∈ c.2 → (∃ c0 ∈ cs, x = c0.1 ∨ x ∈ c0.2) ∨ x = r
  | [] => by
    intro c hc x hx
    simp only [clusterAdd, List.mem_singleton] at hc
    subst hc
    rcases hx with h | h
    · exact Or.inr h
    · simp at h
  | c :: cs => by
    intro c' hc' x hx
    rw [clusterAdd] at hc'
    split_ifs at hc' with h
    · rcases List.mem_cons.mp hc' with rfl | hc2
      · rcases hx with h1 | h1
        · exact Or.inl ⟨c, List.mem_cons_self c cs, Or.inl h1⟩
        · rcases List.mem_append.mp h1 with h2 | h2
          · exact Or.inl ⟨c, List.mem_cons_self c cs, Or.inr h2⟩
          · exact Or.inr (List.mem_singleton.mp h2)
      · exact Or.inl ⟨c', List.mem_cons_of_mem c hc2, hx⟩
    · rcases List.mem_cons.mp hc' with rfl | hc2
      · exact Or.inl ⟨c', List.mem_cons_self c' cs, hx⟩
      · rcases clusterAdd_mem radius r cs c' hc2 x hx with ⟨c0, h0, h1⟩ | h1
        · exact Or.inl ⟨c0, List.mem_cons_of_mem c h0, h1⟩
        · exact Or.inr h1

theorem pyMaxAux_left (best : Report) :
    ∀ xs : List Report, (∀ x ∈ xs, conf x ≤ conf best) → pyMaxAux best xs = best
  | [], _ => rfl
  | x :: xs, h => by
    rw [pyMaxAux, if_neg (by have := h x (List.mem_cons_self x xs); omega)]
    exact pyMaxAux_left best xs (fun y hy => h y (List.mem_cons_of_mem x hy))

theorem clusterAdd_far (radius : ℝ) (r : Report) :
    ∀ cs : List (Report × List Report),
      (∀ c ∈ cs, ¬ distR c.1 r < radius) →
      clusterAdd radius r cs = cs ++ [(r, [])]
  | [], _ => by simp [clusterAdd]
  | c :: cs, h => by
    rw [clusterAdd, if_neg (h c (List.mem_cons_self c cs)),
      clusterAdd_far radius r cs (fun c0 h0 => h c0 (List.mem_cons_of_mem c h0))]
    rfl

/-- The combined loop invariant of the clustering scan: reference points are
pairwise at least `radius` apart, every cluster member has confidence at most
its reference point's, reference points appear in descending-confidence
order, and every point stored in a cluster came from the initial state or
the processed input. -/
theorem scan_invariants (radius : ℝ) :
    ∀ (l : List Report) (cs : List (Report × List Report)),
      l.Sorted (keyRel fun x => -conf x) →
      (∀ p ∈ cs.map Prod.fst, ∀ x ∈ l, conf x ≤ conf p) →
      ((cs.map Prod.fst).Pairwise fun p q => ¬ distR p q < radius) →
      (∀ c ∈ cs, ∀ x ∈ c.2, conf x ≤ conf c.1) →
      ((cs.map Prod.fst).Sorted (keyRel fun x => -conf x)) →
      (((l.foldl (fun a r => clusterAdd radius r a) cs).map Prod.fst).Pairwise
          fun p q => ¬ distR p q < radius) ∧
      (∀ c ∈ l.foldl (fun a r => clusterAdd radius r a) cs,
          ∀ x ∈ c.2, conf x ≤ conf c.1) ∧
      (((l.foldl (fun a r => clusterAdd radius r a) cs).map Prod.fst).Sorted
          (keyRel fun x => -conf x)) ∧
      (∀ c ∈ l.foldl (fun a r => clusterAdd radius r a) cs, ∀ x,
          x = c.1 ∨ x ∈ c.2 → (∃ c0 ∈ cs, x = c0.1 ∨ x ∈ c0.2) ∨ x ∈ l)
  | [], cs, _, _, ha, hb, hc =>
    ⟨ha, hb, hc, fun c hc0 x hx => Or.inl ⟨c, hc0, hx⟩⟩
  | r :: t, cs, hsort, he, ha, hb, hc => by
    have hrt : ∀ x ∈ t, conf x ≤ conf r := by
      intro x hx
      have := List.rel_of_sorted_cons hsort x hx
      rw [keyRel_iff] at this
      omega
    have hrep := clusterAdd_reps radius r cs
    have he' : ∀ p ∈ (clusterAdd radius r cs).map Prod.fst, ∀ x ∈ t,
        conf x ≤ conf p := by
      rcases hrep with h2 | ⟨h2, _⟩
      · rw [h2]
        exact fun p hp x hx => he p hp x (List.mem_cons_of_mem r hx)
      · rw [h2]
        intro p hp x hx
        rcases List.mem_append.mp hp with hp1 | hp2
        · exact he p hp1 x (List.mem_cons_of_mem r hx)
        · rw [List.mem_singleton.mp hp2]
          exact hrt x hx
    have ha' : ((clusterAdd radius r cs).map Prod.fst).Pairwise
        fun p q => ¬ distR p q < radius := by
      rcases hrep with h2 | ⟨h2, h3⟩
      · rw [h2]; exact ha
      · rw [h2]
        refine List.pairwise_append.mpr ⟨ha, List.pairwise_singleton _ _, ?_⟩
        intro p hp q hq
        rw [List.mem_singleton.mp hq]
        obtain ⟨c0, hc0, hc0p⟩ := List.mem_map.mp hp
        rw [← hc0p]
        exact h3 c0 hc0
    have hb' : ∀ c ∈ clusterAdd radius r cs, ∀ x ∈ c.2, conf x ≤ conf c.1 :=
      clusterAdd_members radius r cs
        (fun c0 h0 => he c0.1 (List.mem_map_of_mem Prod.fst h0) r
          (List.mem_cons_self r t))
        hb
    have hc' : ((clusterAdd radius r cs).map Prod.fst).Sorted
        (keyRel fun x => -conf x) := by
      rcases hrep with h2 | ⟨h2, _⟩
      · rw [h2]; exact hc
      · rw [h2]
        refine List.pairwise_append.mpr ⟨hc, List.pairwise_singleton _ _, ?_⟩
        intro p hp q hq
        rw [List.mem_singleton.mp hq, keyRel_iff]
        have := he p hp r (List.mem_cons_self r t)
        omega
    have main := scan_invariants radius t (clusterAdd radius r cs)
      hsort.of_cons he' ha' hb' hc'
    refine ⟨main.1, main.2.1, main.2.2.1, ?_⟩
    intro c hcmem x hx
    rcases main.2.2.2 c hcmem x hx with ⟨c0, hc0, hx0⟩ | hxt
    · rcases clusterAdd_mem radius r cs c0 hc0 x hx0 with h | h
      · exact Or.inl h
      · exact Or.inr (by rw [h]; exact List.mem_cons_self r t)
    · exact Or.inr (List.mem_cons_of_mem r hxt)

theorem groupOut_eq_reps (radius : ℝ) (g : List Report) :
    groupOut radius g = (scanClusters radius (sortConf g)).map Prod.fst := by
  have main := scan_invariants radius (sortConf g) []
    (List.sorted_insertionSort _ g) (by simp) (by simp) (by simp) (by simp)
  exact List.map_congr_left
    (fun c hcmem => pyMaxAux_left c.1 c.2 (main.2.1 c hcmem))

theorem groupOut_pairwise (radius : ℝ) (g : List Report) :
    (groupOut radius g).Pairwise fun p q => ¬ distR p q < radius := by
  rw [groupOut_eq_reps]
  exact (scan_invariants radius (sortConf g) []
    (List.sorted_insertionSort _ g) (by simp) (by simp) (by simp) (by simp)).1

theorem groupOut_sorted (radius : ℝ) (g : List Report) :
    (groupOut radius g).Sorted (keyRel fun x => -conf x) := by
  rw [groupOut_eq_reps]
  exact (scan_invariants radius (sortConf g) []
    (List.sorted_insertionSort _ g) (by simp) (by simp) (by simp)
    (by simp)).2.2.1

theorem groupOut_subset (radius : ℝ) (g : List Report) :
    ∀ x ∈ groupOut radius g, x ∈ g := by
  intro x hx
  rw [groupOut_eq_reps] at hx
  obtain ⟨c, hcmem, hcx⟩ := List.mem_map.mp hx
  have main := scan_invariants radius (sortConf g) []
    (List.sorted_insertionSort _ g) (by simp) (by simp) (by simp) (by simp)
  rcases main.2.2.2 c hcmem x (Or.inl hcx.symm) with ⟨c0, h0, _⟩ | h1
  · exact absurd h0 (List.not_mem_nil c0)
  · exact ((List.perm_insertionSort _ g).mem_iff).mp h1

theorem scan_far_aux (radius : ℝ) :
    ∀ (l m : List Report),
      ((m ++ l).Pairwise fun p q => ¬ distR p q < radius) →
      l.foldl (fun a r => clusterAdd radius r a) (m.map fun s => (s, [])) =
        (m ++ l).map fun s => (s, [])
  | [], m, _ => by simp
  | r :: t, m, hp => by
    have hm : ∀ x ∈ m, ¬ distR x r < radius := by
      have := List.pairwise_append.mp hp
      exact fun x hx => this.2.2 x hx r (List.mem_cons_self r t)
    have h1 : clusterAdd radius r (m.map fun s => (s, [])) =
        (m.map fun s => (s, [])) ++ [(r, [])] :=
      clusterAdd_far radius r _ (by
        intro c hcmem
        obtain ⟨x, hx, rfl⟩ := List.mem_map.mp hcmem
        exact hm x hx)
    rw [List.foldl_cons, h1]
    have h2 : (m.map fun s => (s, ([] : List Report))) ++ [(r, [])] =
        ((m ++ [r]).map fun s => (s, ([] : List Report))) := by simp
    rw [h2, scan_far_aux radius t (m ++ [r])
      (by rw [List.append_assoc, List.singleton_append]; exact hp)]
    simp

theorem scanClusters_far (radius : ℝ) (l : List Report)
    (h : l.Pairwise fun p q => ¬ distR p q < radius) :
    scanClusters radius l = l.map fun s => (s, []) := by
  have := scan_far_aux radius l [] (by simpa using h)
  simpa using this

theorem groupOut_far (radius : ℝ) (l : List Report)
    (h : l.Pairwise fun p q => ¬ distR p q < radius) :
    groupOut radius l = sortConf l := by
  have hsym : ∀ {p q : Report}, (¬ distR p q < radius) → ¬ distR q p < radius := by
    intro p q hpq
    rw [distR_comm]
    exact hpq
  have h2 : (sortConf l).Pairwise fun p q => ¬ distR p q < radius :=
    (List.Perm.pairwise_iff hsym (List.perm_insertionSort _ l)).mpr h
  unfold groupOut
  rw [scanClusters_far radius _ h2, List.map_map]
  have h3 : List.map (pyMax ∘ fun s => (s, ([] : List Report))) (sortConf l) =
      List.map id (sortConf l) :=
    List.map_congr_left (fun s _ => rfl)
  rw [h3, List.map_id]

theorem foldl_clusterAdd_ne_nil (radius : ℝ) :
    ∀ (l : List Report) (cs : List (Report × List Report)), cs ≠ [] →
      l.foldl (fun a r => clusterAdd radius r a) cs ≠ []
  | [], _, h => h
  | r :: t, cs, _ => by
    rw [List.foldl_cons]
    exact foldl_clusterAdd_ne_nil radius t _ (clusterAdd_ne_nil radius r cs)

theorem groupOut_ne_nil (radius : ℝ) (g : List Report) (h : g ≠ []) :
    groupOut radius g ≠ [] := by
  unfold groupOut
  intro hmap
  have h1 : scanClusters radius (sortConf g) = [] := List.map_eq_nil_iff.mp hmap
  have hlen : (sortConf g).length = g.length :=
    (List.perm_insertionSort _ g).length_eq
  cases hsc : sortConf g with
  | nil =>
    rw [hsc] at hlen
    cases g with
    | nil => exact h rfl
    | cons a t => simp at hlen
  | cons a t =>
    rw [hsc] at h1
    unfold scanClusters at h1
    rw [List.foldl_cons] at h1
    exact foldl_clusterAdd_ne_nil radius t _ (clusterAdd_ne_nil radius a []) h1

theorem groupOf_mem {reports : List Report} {k : ℤ} {x : Report}
    (h : x ∈ groupOf reports k) : x ∈ reports ∧ repKey x = k := by
  unfold groupOf at h
  have := List.mem_filter.mp h
  exact ⟨this.1, by simpa using this.2⟩

theorem groupOut_repKey (radius : ℝ) (X : List Report) (k : ℤ) :
    ∀ x ∈ groupOut radius (groupOf X k), repKey x = k :=
  fun x hx => (groupOf_mem (groupOut_subset radius _ x hx)).2

theorem insertKey_mem (ks : List ℤ) (k a : ℤ) :
    a ∈ insertKey ks k ↔ a ∈ ks ∨ a = k := by
  unfold insertKey
  split_ifs with h
  · constructor
    · exact Or.inl
    · intro h2
      rcases h2 with h2 | rfl
      · exact h2
      · exact h
  · simp [List.mem_append]

theorem insertKey_nodup (ks : List ℤ) (k : ℤ) (h : ks.Nodup) :
    (insertKey ks k).Nodup := by
  unfold insertKey
  split_ifs with hmem
  · exact h
  · rw [List.nodup_append]
    exact ⟨h, List.nodup_singleton k,
      fun a ha hak => hmem (List.mem_singleton.mp hak ▸ ha)⟩

theorem dictKeys_aux (l : List Report) :
    ∀ ks : List ℤ, ks.Nodup →
      (l.foldl (fun a r => insertKey a (repKey r)) ks).Nodup ∧
      ∀ a, a ∈ l.foldl (fun a r => insertKey a (repKey r)) ks ↔
        a ∈ ks ∨ ∃ r ∈ l, repKey r = a := by
  induction l with
  | nil => exact fun ks h => ⟨h, fun a => by simp⟩
  | cons r t ih =>
    intro ks h
    rw [List.foldl_cons]
    obtain ⟨h1, h2⟩ := ih (insertKey ks (repKey r)) (insertKey_nodup ks (repKey r) h)
    refine ⟨h1, fun a => ?_⟩
    rw [h2 a, insertKey_mem]
    constructor
    · rintro ((hks | rfl) | ⟨s, hs, hsk⟩)
      · exact Or.inl hks
      · exact Or.inr ⟨r, List.mem_cons_self r t, rfl⟩
      · exact Or.inr ⟨s, List.mem_cons_of_mem r hs, hsk⟩
    · rintro (hks | ⟨s, hs, hsk⟩)
      · exact Or.inl (Or.inl hks)
      · rcases List.mem_cons.mp hs with rfl | hs2
        · exact Or.inl (Or.inr hsk.symm)
        · exact Or.inr ⟨s, hs2, hsk⟩

theorem dictKeys_nodup (l : List Report) : (dictKeys l).Nodup :=
  (dictKeys_aux l [] List.nodup_nil).1

theorem mem_dictKeys (l : List Report) (a : ℤ) :
    a ∈ dictKeys l ↔ ∃ r ∈ l, repKey r = a := by
  have := (dictKeys_aux l [] List.nodup_nil).2 a
  simpa [dictKeys] using this

theorem filter_beq_of_nodup {t : ℤ} :
    ∀ {A : List ℤ}, A.Nodup →
      A.filter (fun n => n == t) = if t ∈ A then [t] else [] := by
  intro A
  induction A with
  | nil => intro _; simp
  | cons a A2 ih =>
    intro h
    rw [List.filter_cons]
    by_cases hat : a = t
    · subst hat
      rw [if_pos (by simp), ih (List.nodup_cons.mp h).2,
        if_neg (List.nodup_cons.mp h).1, if_pos (List.mem_cons_self a A2)]
    · rw [if_neg (by simp [hat]), ih (List.nodup_cons.mp h).2]
      by_cases htA : t ∈ A2
      · rw [if_pos htA, if_pos (List.mem_cons_of_mem a htA)]
      · rw [if_neg htA, if_neg (fun hmem => by
          rcases List.mem_cons.mp hmem with h2 | h2
          · exact hat h2.symm
          · exact htA h2)]

theorem sortInts_eq_of_mem {A B : List ℤ} (hA : A.Nodup) (hB : B.Nodup)
    (h : ∀ a, a ∈ A ↔ a ∈ B) : sortInts A = sortInts B := by
  apply sortByKey_eq_of_filters
  intro t
  have h1 : A.filter (fun n => n == t) = B.filter (fun n => n == t) := by
    rw [filter_beq_of_nodup hA, filter_beq_of_nodup hB]
    by_cases ht : t ∈ A
    · rw [if_pos ht, if_pos ((h t).mp ht)]
    · rw [if_neg ht, if_neg (fun h2 => ht ((h t).mpr h2))]
  exact h1

theorem flatten_filter_eq_block (k : ℤ) :
    ∀ (Ks : List ℤ) (B : ℤ → List Report), Ks.Nodup → k ∈ Ks →
      (∀ k' ∈ Ks, ∀ x ∈ B k', repKey x = k') →
      ((Ks.map B).flatten.filter fun x => repKey x == k) = B k
  | [], _, _, hk, _ => absurd hk (List.not_mem_nil k)
  | k0 :: Ks, B, hnd, hk, hB => by
    rw [List.map_cons, List.flatten_cons, List.filter_append]
    rcases List.mem_cons.mp hk with rfl | hk2
    · have hBk : (B k).filter (fun x => repKey x == k) = B k :=
        List.filter_eq_self.mpr
          (fun x hx => by simp [hB k (List.mem_cons_self k Ks) x hx])
      have hrest : ((Ks.map B).flatten.filter fun x => repKey x == k) = [] := by
        rw [List.filter_eq_nil_iff]
        intro x hx
        obtain ⟨lx, hlx, hxin⟩ := List.mem_flatten.mp hx
        obtain ⟨k', hk', rfl⟩ := List.mem_map.mp hlx
        have hx2 := hB k' (List.mem_cons_of_mem k hk') x hxin
        have hkk : k' ≠ k := fun he => (List.nodup_cons.mp hnd).1 (he ▸ hk')
        simp [hx2, hkk]
      rw [hBk, hrest, List.append_nil]
    · have hk0 : k0 ≠ k := fun he => (List.nodup_cons.mp hnd).1 (he ▸ hk2)
      have hB0 : (B k0).filter (fun x => repKey x == k) = [] := by
        rw [List.filter_eq_nil_iff]
        intro x hx
        have hx2 := hB k0 (List.mem_cons_self k0 Ks) x hx
        simp [hx2, hk0]
      rw [hB0, List.nil_append]
      exact flatten_filter_eq_block k Ks B (List.nodup_cons.mp hnd).2 hk2
        (fun k' h' => hB k' (List.mem_cons_of_mem k0 h'))

theorem mem_sortTs {x : Report} {l : List Report} : x ∈ sortTs l ↔ x ∈ l :=
  (List.perm_insertionSort _ l).mem_iff

theorem mem_sortInts {a : ℤ} {l : List ℤ} : a ∈ sortInts l ↔ a ∈ l :=
  (List.perm_insertionSort _ l).mem_iff

theorem sortInts_nodup {l : List ℤ} (h : l.Nodup) : (sortInts l).Nodup :=
  ((List.perm_insertionSort _ l).nodup_iff).mpr h

theorem dedupe_mem {radius : ℝ} {X : List Report} {x : Report}
    (h : x ∈ dedupe_reports X radius) : x ∈ X := by
  unfold dedupe_reports at h
  rw [mem_sortTs] at h
  obtain ⟨lx, hlx, hxin⟩ := List.mem_flatten.mp h
  obtain ⟨k, hk, rfl⟩ := List.mem_map.mp hlx
  exact (groupOf_mem (groupOut_subset radius _ x hxin)).1

theorem dictKeys_dedupe_mem (radius : ℝ) (X : List Report) :
    ∀ a, a ∈ dictKeys (dedupe_reports X radius) ↔ a ∈ dictKeys X := by
  intro a
  rw [mem_dictKeys, mem_dictKeys]
  constructor
  · rintro ⟨r, hr, rfl⟩
    exact ⟨r, dedupe_mem hr, rfl⟩
  · rintro ⟨r, hr, rfl⟩
    have hg : groupOf X (repKey r) ≠ [] := by
      intro hnil
      have hmem : r ∈ groupOf X (repKey r) := List.mem_filter.mpr ⟨hr, by simp⟩
      rw [hnil] at hmem
      exact List.not_mem_nil r hmem
    obtain ⟨x, hx⟩ := List.exists_mem_of_ne_nil _ (groupOut_ne_nil radius _ hg)
    refine ⟨x, ?_, groupOut_repKey radius X (repKey r) x hx⟩
    unfold dedupe_reports
    rw [mem_sortTs]
    refine List.mem_flatten.mpr ⟨_, List.mem_map_of_mem _ ?_, hx⟩
    rw [mem_sortInts, mem_dictKeys]
    exact ⟨r, hr, rfl⟩

theorem filter_ts_sortConf_sortTs (t : ℤ) (L : List Report)
    (hL : L.Sorted (keyRel fun x => -conf x)) :
    (sortConf (sortTs L)).filter (fun r => r.timestamp == t) =
      L.filter (fun r => r.timestamp == t) := by
  unfold sortConf sortTs
  rw [filter_sortByKey, filter_sortByKey,
    sortByKey_const (fun r : Report => r.timestamp)
      (fun x hx => by simpa using (List.mem_filter.mp hx).2)]
  exact List.Sorted.insertionSort_eq (List.Pairwise.filter _ hL)

/-- `dedupe_reports` is idempotent. -/
theorem dedupe_idem (radius : ℝ) (X : List Report) :
    dedupe_reports (dedupe_reports X radius) radius =
      dedupe_reports X radius := by
  have hKs2 : sortInts (dictKeys (dedupe_reports X radius)) =
      sortInts (dictKeys X) :=
    sortInts_eq_of_mem (dictKeys_nodup _) (dictKeys_nodup _)
      (dictKeys_dedupe_mem radius X)
  have hKsnd : (sortInts (dictKeys X)).Nodup := sortInts_nodup (dictKeys_nodup X)
  have hG2 : ∀ k ∈ sortInts (dictKeys X),
      groupOf (dedupe_reports X radius) k =
        sortTs (groupOut radius (groupOf X k)) := by
    intro k hk
    unfold groupOf dedupe_reports
    unfold sortTs
    rw [filter_sortByKey, flatten_filter_eq_block k (sortInts (dictKeys X))
      (fun k' => groupOut radius (groupOf X k')) hKsnd hk
      (fun k' _ x hx => groupOut_repKey radius X k' x hx)]
    rfl
  have hGO2 : ∀ k ∈ sortInts (dictKeys X),
      groupOut radius (groupOf (dedupe_reports X radius) k) =
        sortConf (sortTs (groupOut radius (groupOf X k))) := by
    intro k hk
    rw [hG2 k hk]
    apply groupOut_far
    have hsym : ∀ {p q : Report}, (¬ distR p q < radius) →
        ¬ distR q p < radius := by
      intro p q hpq
      rw [distR_comm]
      exact hpq
    exact (List.Perm.pairwise_iff hsym (List.perm_insertionSort _ _)).mpr
      (groupOut_pairwise radius _)
  have hfilters : ∀ t : ℤ,
      ((((sortInts (dictKeys X)).map fun k =>
          groupOut radius (groupOf (dedupe_reports X radius) k)).flatten).filter
        (fun r => r.timestamp == t)) =
      ((((sortInts (dictKeys X)).map fun k =>
          groupOut radius (groupOf X k)).flatten).filter
        (fun r => r.timestamp == t)) := by
    intro t
    rw [List.filter_flatten, List.filter_flatten, List.map_map, List.map_map]
    refine congrArg List.flatten (List.map_congr_left ?_)
    intro k hk
    show (groupOut radius (groupOf (dedupe_reports X radius) k)).filter _ =
      (groupOut radius (groupOf X k)).filter _
    rw [hGO2 k hk]
    exact filter_ts_sortConf_sortTs t _ (groupOut_sorted radius _)
  calc dedupe_reports (dedupe_reports X radius) radius
      = sortTs ((((sortInts (dictKeys (dedupe_reports X radius))).map
          (fun k => groupOut radius
            (groupOf (dedupe_reports X radius) k))).flatten)) := rfl
    _ = sortTs ((((sortInts (dictKeys X)).map
          (fun k => groupOut radius
            (groupOf (dedupe_reports X radius) k))).flatten)) := by
          rw [hKs2]
    _ = sortTs ((((sortInts (dictKeys X)).map
          (fun k => groupOut radius (groupOf X k))).flatten)) := by
          unfold sortTs
          exact sortByKey_eq_of_filters (fun r : Report => r.timestamp) hfilters
    _ = dedupe_reports X radius := rfl

theorem dedupe_pair_eq (p q : Report) (hkey : repKey p = repKey q) :
    dedupe_reports [p, q] 50 = sortTs (groupOut 50 [p, q]) := by
  have h0 : insertKey [] (repKey p) = [repKey p] := by
    unfold insertKey
    rw [if_neg (List.not_mem_nil _)]
    rfl
  have h1 : dictKeys [p, q] = [repKey p] := by
    unfold dictKeys
    rw [List.foldl_cons, h0, List.foldl_cons, List.foldl_nil]
    unfold insertKey
    rw [if_pos (by rw [← hkey]; exact List.mem_singleton_self _)]
  have h3 : groupOf [p, q] (repKey p) = [p, q] := by
    unfold groupOf
    rw [List.filter_cons, List.filter_cons, List.filter_nil,
      if_pos (by simp : (repKey p == repKey p) = true),
      if_pos (by simp [← hkey] : (repKey q == repKey p) = true)]
  unfold dedupe_reports
  rw [h1]
  have h2 : sortInts [repKey p] = [repKey p] := rfl
  rw [h2, List.map_cons, List.map_nil, List.flatten_cons, List.flatten_nil,
    List.append_nil, h3]

theorem sortConf_pair (p q : Report) :
    (conf q ≤ conf p ∧ sortConf [p, q] = [p, q]) ∨
    (conf p < conf q ∧ sortConf [p, q] = [q, p]) := by
  have hs : sortConf [p, q] =
      List.orderedInsert (keyRel fun x => -conf x) p [q] := rfl
  by_cases h : conf q ≤ conf p
  · refine Or.inl ⟨h, ?_⟩
    rw [hs, List.orderedInsert,
      if_pos (show keyRel (fun x => -conf x) p q by rw [keyRel_iff]; omega)]
  · refine Or.inr ⟨by omega, ?_⟩
    rw [hs, List.orderedInsert,
      if_neg (show ¬ keyRel (fun x => -conf x) p q by rw [keyRel_iff]; omega)]
    rfl

theorem scanClusters_pair_near (a b : Report) (hd : distR a b < 50) :
    scanClusters 50 [a, b] = [(a, [b])] := by
  unfold scanClusters
  rw [List.foldl_cons, List.foldl_cons, List.foldl_nil]
  rw [clusterAdd, clusterAdd]
  dsimp only
  rw [if_pos hd]
  rfl

theorem scanClusters_pair_far (a b : Report) (hd : ¬ distR a b < 50) :
    scanClusters 50 [a, b] = [(a, []), (b, [])] := by
  unfold scanClusters
  rw [List.foldl_cons, List.foldl_cons, List.foldl_nil]
  rw [clusterAdd, clusterAdd]
  dsimp only
  rw [if_neg hd, clusterAdd]

theorem dedupe_pair_near (p q : Report) (hkey : repKey p = repKey q)
    (hd : distR p q < 50) :
    dedupe_reports [p, q] 50 = [if conf q ≤ conf p then p else q] := by
  rw [dedupe_pair_eq p q hkey]
  rcases sortConf_pair p q with ⟨hc, hs⟩ | ⟨hc, hs⟩
  · rw [if_pos hc]
    unfold groupOut
    rw [hs, scanClusters_pair_near p q hd, List.map_cons, List.map_nil]
    have hmax : pyMax (p, [q]) = p := by
      show pyMaxAux p [q] = p
      rw [pyMaxAux, if_neg (show ¬ conf p < conf q by omega)]
      rfl
    rw [hmax]
    rfl
  · rw [if_neg (by omega)]
    unfold groupOut
    rw [hs, scanClusters_pair_near q p (by rw [distR_comm]; exact hd),
      List.map_cons, List.map_nil]
    have hmax : pyMax (q, [p]) = q := by
      show pyMaxAux q [p] = q
      rw [pyMaxAux, if_neg (show ¬ conf q < conf p by omega)]
      rfl
    rw [hmax]
    rfl

theorem dedupe_pair_far (p q : Report) (hkey : repKey p = repKey q)
    (hd : ¬ distR p q < 50) :
    (dedupe_reports [p, q] 50).length = 2 := by
  rw [dedupe_pair_eq p q hkey]
  have hlen : ∀ l : List Report, (sortTs l).length = l.length :=
    fun l => (List.perm_insertionSort _ l).length_eq
  rcases sortConf_pair p q with ⟨_, hs⟩ | ⟨_, hs⟩
  · unfold groupOut
    rw [hs, scanClusters_pair_far p q hd, hlen]
    rfl
  · unfold groupOut
    rw [hs, scanClusters_pair_far q p (by rw [distR_comm]; exact hd), hlen]
    rfl

theorem haversine_self (lat lon : ℝ) : haversine_m lat lon lat lon = 0 := by
  unfold haversine_m
  simp only []
  have h0 : radians 0 = 0 := by unfold radians; ring
  rw [sub_self, sub_self, h0]
  norm_num [Real.sin_zero, atan2, Real.sqrt_zero, Real.sqrt_one,
    Real.arctan_zero]

theorem haversine_pole : haversine_m 0 0 90 0 = 6371000 * 2 * (Real.pi / 4) := by
  unfold haversine_m
  simp only []
  have h90 : radians (90 - 0) = Real.pi / 2 := by unfold radians; ring
  have h00 : radians (0 - 0 : ℝ) = 0 := by unfold radians; ring
  have h90b : radians (90 : ℝ) = Real.pi / 2 := by unfold radians; ring
  have hz : radians (0 : ℝ) = 0 := by unfold radians; ring
  rw [h90, h00, h90b, hz]
  have hq : Real.pi / 2 / 2 = Real.pi / 4 := by ring
  have hs0 : Real.sin ((0 : ℝ) / 2) = 0 := by rw [zero_div, Real.sin_zero]
  rw [hq, hs0, Real.cos_pi_div_two, Real.sin_pi_div_four]
  have hsq : (Real.sqrt 2 / 2) ^ 2 = 1 / 2 := by
    rw [div_pow, Real.sq_sqrt (by norm_num : (0:ℝ) ≤ 2)]
    norm_num
  rw [hsq]
  have harg : (1 : ℝ) / 2 + Real.cos 0 * 0 * 0 ^ 2 = 1 / 2 := by ring
  rw [harg]
  have hsub : (1 : ℝ) - 1 / 2 = 1 / 2 := by norm_num
  rw [hsub]
  have hpos : (0 : ℝ) < Real.sqrt (1 / 2) := Real.sqrt_pos.mpr (by norm_num)
  unfold atan2
  rw [if_pos hpos, div_self (ne_of_gt hpos), Real.arctan_one]

theorem haversine_pole_far : ¬ haversine_m 0 0 90 0 < 50 := by
  rw [haversine_pole]
  intro h
  have hpi := Real.pi_gt_three
  linarith

/-- **C8**: `dedupe_reports` is idempotent
(`dedupe_reports(dedupe_reports(X)) == dedupe_reports(X)` for every report
list and radius); two reports in the same counter bucket collapse to a
single output point whenever their haversine distance is below the default
50 m radius, the survivor being the report of maximum confidence (ties keep
the earlier one, as Python's `max` does); and they remain two output points
whenever their distance is not below the radius. -/
theorem dedupe_reports_spec :
    (∀ (X : List Report) (radius : ℝ),
        dedupe_reports (dedupe_reports X radius) radius =
          dedupe_reports X radius) ∧
    (∀ p q : Report, repKey p = repKey q → distR p q < 50 →
        dedupe_reports [p, q] 50 = [if conf q ≤ conf p then p else q]) ∧
    (∀ p q : Report, repKey p = repKey q → ¬ distR p q < 50 →
        (dedupe_reports [p, q] 50).length = 2) :=
  ⟨fun X radius => dedupe_idem radius X, dedupe_pair_near, dedupe_pair_far⟩

/-- A report at the origin with counter 1 and confidence 5. -/
noncomputable def wrA : Report := ⟨0, 0, 0, some 1, some 5⟩

/-- A report at the origin with counter 1, a later timestamp and
confidence 3. -/
noncomputable def wrB : Report := ⟨0, 0, 7, some 1, some 3⟩

/-- A report at the origin with counter 2 and no confidence. -/
noncomputable def wrC : Report := ⟨0, 0, 0, some 2, none⟩

/-- A report at the north pole with counter 2 and no confidence. -/
noncomputable def wrD : Report := ⟨90, 0, 5, some 2, none⟩

/-- Witness for C8: two coincident counter-1 reports collapse to the
confidence-5 one, and an origin/pole pair (about 10 000 km apart) stays two
points. -/
theorem dedupe_reports_spec_witness :
    dedupe_reports [wrA, wrB] 50 = [wrA] ∧
    (dedupe_reports [wrC, wrD] 50).length = 2 := by
  obtain ⟨-, hnear, hfar⟩ := dedupe_reports_spec
  constructor
  · have h := hnear wrA wrB rfl
      (show distR wrA wrB < 50 by
        show haversine_m 0 0 0 0 < 50
        rw [haversine_self]
        norm_num)
    rw [if_pos (show conf wrB ≤ conf wrA by norm_num [conf, wrA, wrB])] at h
    exact h
  · exact hfar wrC wrD rfl (show ¬ distR wrC wrD < 50 from haversine_pole_far)

end GpsTracker
